import Mathlib

/-!
Verification of the core of the edirect-style indexing and retrieval engine
(`eutils` package: phrase.go, poster.go, invert.go, xml.go, rchive sources).

Go slices of `int32` are modelled as `Option (List Int)`: `none` is the nil
slice, `some l` a non-nil slice with contents `l`.  All arithmetic on uids and
word positions in the source is comparison and copying only, so `Int` models
`int32`/`int16` exactly on the inputs considered.
-/

namespace Eutils

/-- A Go `[]int32`: `none` is the nil slice. -/
abbrev GoSlice := Option (List Int)

/-! ### phrase.go: BOOLEAN OPERATIONS FOR POSTINGS LISTS -/

/-- Core merge loop of `intersectIDs` (phrase.go): both lists non-empty on
entry in Go; the loop breaks when either index reaches its end. -/
def intersectLoop : List Int → List Int → List Int
  | [], _ => []
  | _, [] => []
  | en :: ns, em :: ms =>
    if en < em then intersectLoop ns (em :: ms)
    else if em < en then intersectLoop (en :: ns) ms
    else en :: intersectLoop ns ms

/-- `intersectIDs` (phrase.go): nil checks, swap so the second list is the
smaller, empty-second-list returns the first list unchanged. -/
def intersectIDs (N M : GoSlice) : GoSlice :=
  match N, M with
  | none, _ => M
  | _, none => N
  | some nl, some ml =>
    -- swap to make M the smaller list
    let p := if nl.length < ml.length then (ml, nl) else (nl, ml)
    if p.2.length < 1 then some p.1
    else some (intersectLoop p.1 p.2)

/-- Core merge loop of `combineIDs` (phrase.go), including the two tail
drains after the main loop. -/
def combineLoop : List Int → List Int → List Int
  | [], ms => ms
  | ns, [] => ns
  | en :: ns, em :: ms =>
    if en < em then en :: combineLoop ns (em :: ms)
    else if em < en then em :: combineLoop (en :: ns) ms
    else en :: combineLoop ns ms

/-- `combineIDs` (phrase.go): nil checks, swap, empty-second-list shortcut. -/
def combineIDs (N M : GoSlice) : GoSlice :=
  match N, M with
  | none, _ => M
  | _, none => N
  | some nl, some ml =>
    let p := if nl.length < ml.length then (ml, nl) else (nl, ml)
    if p.2.length < 1 then some p.1
    else some (combineLoop p.1 p.2)

/-- Core loop of `excludeIDs` (phrase.go).  The Go loop breaks as soon as
either index reaches its end and never drains the remainder of the first
list, so items of `N` at or past the end of `M` are dropped.  (When the
first list is empty and the second non-empty the Go code would index out of
range; that state is unreachable from `excludeIDs`, whose callers pass nil
or non-empty first arguments, and this model returns `[]` there.) -/
def excludeLoop : List Int → List Int → List Int
  | [], _ => []
  | _, [] => []
  | en :: ns, em :: ms =>
    if en < em then en :: excludeLoop ns (em :: ms)
    else if em < en then excludeLoop (en :: ns) ms
    else excludeLoop ns ms

/-- `excludeIDs` (phrase.go): nil first list returns nil, nil or empty
second list returns the first list unchanged. -/
def excludeIDs (N M : GoSlice) : GoSlice :=
  match N, M with
  | none, _ => none
  | _, none => N
  | some nl, some ml =>
    if ml.length < 1 then some nl
    else some (excludeLoop nl ml)

/-! ### Lemmas about the merge loops -/

instance : IsAntisymm Int (· < ·) :=
  ⟨fun _ _ h h' => absurd h' (lt_asymm h)⟩

theorem intersectLoop_self : ∀ l : List Int, intersectLoop l l = l := by
  intro l
  induction l with
  | nil => simp [intersectLoop]
  | cons a as ih => simp [intersectLoop, ih]

theorem excludeLoop_self : ∀ l : List Int, excludeLoop l l = [] := by
  intro l
  induction l with
  | nil => simp [excludeLoop]
  | cons a as ih => simp [excludeLoop, ih]

theorem intersectLoop_sublist_left :
    ∀ a b : List Int, List.Sublist (intersectLoop a b) a := by
  intro a
  induction a with
  | nil => intro b; cases b <;> simp [intersectLoop]
  | cons en ns ihn =>
    intro b
    induction b with
    | nil => simp [intersectLoop]
    | cons em ms ihm =>
      by_cases h1 : en < em
      · simpa [intersectLoop, h1] using (ihn (em :: ms)).cons en
      · by_cases h2 : em < en
        · simpa [intersectLoop, h1, h2] using ihm
        · simpa [intersectLoop, h1, h2] using (ihn ms).cons₂ en

theorem mem_combineLoop :
    ∀ (a b : List Int) (x : Int), x ∈ combineLoop a b ↔ x ∈ a ∨ x ∈ b := by
  intro a
  induction a with
  | nil => intro b x; cases b <;> simp [combineLoop]
  | cons en ns ihn =>
    intro b
    induction b with
    | nil => simp [combineLoop]
    | cons em ms ihm =>
      intro x
      by_cases h1 : en < em
      · simp only [combineLoop, if_pos h1, List.mem_cons, ihn (em :: ms) x]
        tauto
      · by_cases h2 : em < en
        · simp only [combineLoop, if_neg h1, if_pos h2, List.mem_cons, ihm x]
          tauto
        · have he : en = em := le_antisymm (not_lt.1 h2) (not_lt.1 h1)
          subst he
          simp only [combineLoop, if_neg h1, if_neg h2, List.mem_cons, ihn ms x]
          tauto

theorem combineLoop_comm :
    ∀ a b : List Int, combineLoop a b = combineLoop b a := by
  intro a
  induction a with
  | nil => intro b; cases b <;> simp [combineLoop]
  | cons en ns ihn =>
    intro b
    induction b with
    | nil => simp [combineLoop]
    | cons em ms ihm =>
      by_cases h1 : en < em
      · have h2 : ¬ em < en := not_lt.2 (le_of_lt h1)
        simp [combineLoop, h1, h2, ihn (em :: ms)]
      · by_cases h2 : em < en
        · simp [combineLoop, h1, h2, ihm]
        · have he : en = em := le_antisymm (not_lt.1 h2) (not_lt.1 h1)
          subst he
          simp [combineLoop, h1, ihn ms]

theorem sorted_combineLoop :
    ∀ a b : List Int, a.Sorted (· < ·) → b.Sorted (· < ·) →
      (combineLoop a b).Sorted (· < ·) := by
  intro a
  induction a with
  | nil =>
    intro b ha hb
    cases b with
    | nil => simp [combineLoop]
    | cons em ms => simpa [combineLoop] using hb
  | cons en ns ihn =>
    intro b
    induction b with
    | nil => intro ha _; simpa [combineLoop] using ha
    | cons em ms ihm =>
      intro ha hb
      rw [List.sorted_cons] at ha hb
      by_cases h1 : en < em
      · simp only [combineLoop, if_pos h1]
        refine List.sorted_cons.2 ⟨?_, ihn (em :: ms) ha.2 (List.sorted_cons.2 hb)⟩
        intro y hy
        rcases (mem_combineLoop _ _ y).1 hy with h | h
        · exact ha.1 y h
        · rcases List.mem_cons.1 h with rfl | h
          · exact h1
          · exact lt_trans h1 (hb.1 y h)
      · by_cases h2 : em < en
        · simp only [combineLoop, if_neg h1, if_pos h2]
          refine List.sorted_cons.2 ⟨?_, ihm (List.sorted_cons.2 ha) hb.2⟩
          intro y hy
          rcases (mem_combineLoop _ _ y).1 hy with h | h
          · rcases List.mem_cons.1 h with rfl | h
            · exact h2
            · exact lt_trans h2 (ha.1 y h)
          · exact hb.1 y h
        · have he : en = em := le_antisymm (not_lt.1 h2) (not_lt.1 h1)
          subst he
          simp only [combineLoop, if_neg h1]
          refine List.sorted_cons.2 ⟨?_, ihn ms ha.2 hb.2⟩
          intro y hy
          rcases (mem_combineLoop _ _ y).1 hy with h | h
          · exact ha.1 y h
          · exact hb.1 y h

theorem mem_intersectLoop :
    ∀ (a b : List Int), a.Sorted (· < ·) → b.Sorted (· < ·) →
      ∀ x : Int, x ∈ intersectLoop a b ↔ x ∈ a ∧ x ∈ b := by
  intro a
  induction a with
  | nil => intro b _ _ x; cases b <;> simp [intersectLoop]
  | cons en ns ihn =>
    intro b
    induction b with
    | nil => simp [intersectLoop]
    | cons em ms ihm =>
      intro ha hb x
      rw [List.sorted_cons] at ha hb
      by_cases h1 : en < em
      · -- en is smaller than everything in b, so it cannot be in the intersection
        have hnot : en ∉ em :: ms := by
          intro hmem
          rcases List.mem_cons.1 hmem with rfl | h
          · exact lt_irrefl en h1
          · exact lt_irrefl en (lt_trans h1 (hb.1 en h))
        rw [intersectLoop, if_pos h1,
          ihn (em :: ms) ha.2 (List.sorted_cons.2 hb) x]
        constructor
        · rintro ⟨hx1, hx2⟩; exact ⟨List.mem_cons_of_mem _ hx1, hx2⟩
        · rintro ⟨hx1, hx2⟩
          rcases List.mem_cons.1 hx1 with rfl | h
          · exact absurd hx2 hnot
          · exact ⟨h, hx2⟩
      · by_cases h2 : em < en
        · have hnot : em ∉ en :: ns := by
            intro hmem
            rcases List.mem_cons.1 hmem with rfl | h
            · exact lt_irrefl em h2
            · exact lt_irrefl em (lt_trans h2 (ha.1 em h))
          rw [intersectLoop, if_neg h1, if_pos h2,
            ihm (List.sorted_cons.2 ha) hb.2 x]
          constructor
          · rintro ⟨hx1, hx2⟩; exact ⟨hx1, List.mem_cons_of_mem _ hx2⟩
          · rintro ⟨hx1, hx2⟩
            rcases List.mem_cons.1 hx2 with rfl | h
            · exact absurd hx1 hnot
            · exact ⟨hx1, h⟩
        · have he : en = em := le_antisymm (not_lt.1 h2) (not_lt.1 h1)
          subst he
          rw [intersectLoop, if_neg h1, if_neg h2]
          simp only [List.mem_cons, ihn ms ha.2 hb.2 x]
          constructor
          · rintro (rfl | ⟨hx1, hx2⟩)
            · exact ⟨Or.inl rfl, Or.inl rfl⟩
            · exact ⟨Or.inr hx1, Or.inr hx2⟩
          · rintro ⟨rfl | hx1, hx2⟩
            · exact Or.inl rfl
            · rcases hx2 with rfl | hx2
              · exact absurd hx1 (fun h => lt_irrefl x (ha.1 x h))
              · exact Or.inr ⟨hx1, hx2⟩

theorem sorted_intersectLoop (a b : List Int) (ha : a.Sorted (· < ·)) :
    (intersectLoop a b).Sorted (· < ·) :=
  ha.sublist (intersectLoop_sublist_left a b)

theorem intersectLoop_comm (a b : List Int)
    (ha : a.Sorted (· < ·)) (hb : b.Sorted (· < ·)) :
    intersectLoop a b = intersectLoop b a := by
  apply List.eq_of_perm_of_sorted _ (sorted_intersectLoop a b ha)
    (sorted_intersectLoop b a hb)
  rw [List.perm_ext_iff_of_nodup (sorted_intersectLoop a b ha).nodup
    (sorted_intersectLoop b a hb).nodup]
  intro x
  rw [mem_intersectLoop a b ha hb x, mem_intersectLoop b a hb ha x]
  tauto

/-- `combineIDs` on two non-nil slices is always the merge of their
contents (the swap and the empty-list shortcut never change the result). -/
theorem combineIDs_some (x y : List Int) :
    combineIDs (some x) (some y) = some (combineLoop x y) := by
  by_cases h : x.length < y.length
  · by_cases h0 : x.length < 1
    · have hx : x = [] := List.length_eq_zero.1 (Nat.lt_one_iff.1 h0)
      subst hx
      cases y <;> simp [combineIDs, combineLoop]
    · simp [combineIDs, h, h0, combineLoop_comm y x]
  · by_cases h0 : y.length < 1
    · have hy : y = [] := List.length_eq_zero.1 (Nat.lt_one_iff.1 h0)
      subst hy
      cases x <;> simp [combineIDs, combineLoop]
    · simp [combineIDs, h, h0]

/-- `intersectIDs` on two non-nil, non-empty, sorted slices is the merge
intersection of their contents. -/
theorem intersectIDs_some (x y : List Int)
    (hx : x.Sorted (· < ·)) (hy : y.Sorted (· < ·))
    (hx0 : x ≠ []) (hy0 : y ≠ []) :
    intersectIDs (some x) (some y) = some (intersectLoop x y) := by
  by_cases h : x.length < y.length
  · have h0 : ¬ x.length < 1 :=
      not_lt.2 (Nat.one_le_iff_ne_zero.2 (fun hz => hx0 (List.length_eq_zero.1 hz)))
    simp [intersectIDs, h, h0, intersectLoop_comm y x hy hx]
  · have h0 : ¬ y.length < 1 :=
      not_lt.2 (Nat.one_le_iff_ne_zero.2 (fun hz => hy0 (List.length_eq_zero.1 hz)))
    simp [intersectIDs, h, h0]

/-! ### Claim C5: set-algebra laws -/

/-- C5 (amended): for ascending duplicate-free slices,
`intersectIDs(A, A) = A`, `combineIDs(A, B) = combineIDs(B, A)` and
`excludeIDs(A, A) = ∅` hold as stated; the distributive law
`intersectIDs(A, combineIDs(B, C)) =
 combineIDs(intersectIDs(A, B), intersectIDs(A, C))` holds provided
`A`, `B` and `C` are non-empty (an empty operand acts as the identity of
`intersectIDs`, which breaks distributivity, see `claim_C5_counterexample`). -/
theorem claim_C5 (A B C : List Int)
    (hA : A.Sorted (· < ·)) (hB : B.Sorted (· < ·)) (hC : C.Sorted (· < ·))
    (hA0 : A ≠ []) (hB0 : B ≠ []) (hC0 : C ≠ []) :
    intersectIDs (some A) (some A) = some A ∧
    combineIDs (some A) (some B) = combineIDs (some B) (some A) ∧
    excludeIDs (some A) (some A) = some [] ∧
    intersectIDs (some A) (combineIDs (some B) (some C)) =
      combineIDs (intersectIDs (some A) (some B))
        (intersectIDs (some A) (some C)) := by
  refine ⟨?_, ?_, ?_, ?_⟩
  · by_cases h0 : A.length < 1
    · have : A = [] := List.length_eq_zero.1 (Nat.lt_one_iff.1 h0)
      subst this; simp [intersectIDs]
    · simp [intersectIDs, h0, intersectLoop_self]
  · rw [combineIDs_some, combineIDs_some, combineLoop_comm]
  · by_cases h0 : A.length < 1
    · have : A = [] := List.length_eq_zero.1 (Nat.lt_one_iff.1 h0)
      subst this; simp [excludeIDs]
    · simp [excludeIDs, h0, excludeLoop_self]
  · -- distributivity, all three operands non-empty
    have hU : (combineLoop B C).Sorted (· < ·) := sorted_combineLoop B C hB hC
    have hU0 : combineLoop B C ≠ [] := by
      intro h
      rcases List.exists_mem_of_ne_nil B hB0 with ⟨b, hb⟩
      have : b ∈ combineLoop B C := (mem_combineLoop B C b).2 (Or.inl hb)
      rw [h] at this
      exact absurd this (List.not_mem_nil b)
    have hAB : (intersectLoop A B).Sorted (· < ·) := sorted_intersectLoop A B hA
    have hAC : (intersectLoop A C).Sorted (· < ·) := sorted_intersectLoop A C hA
    rw [combineIDs_some, intersectIDs_some A _ hA hU hA0 hU0,
      intersectIDs_some A B hA hB hA0 hB0,
      intersectIDs_some A C hA hC hA0 hC0, combineIDs_some]
    congr 1
    apply List.eq_of_perm_of_sorted _ (sorted_intersectLoop A _ hA)
      (sorted_combineLoop _ _ hAB hAC)
    rw [List.perm_ext_iff_of_nodup (sorted_intersectLoop A _ hA).nodup
      (sorted_combineLoop _ _ hAB hAC).nodup]
    intro x
    rw [mem_intersectLoop A _ hA hU, mem_combineLoop, mem_combineLoop,
      mem_intersectLoop A B hA hB, mem_intersectLoop A C hA hC]
    tauto

/-- Witness for C5 at `A = [1, 3]`, `B = [1]`, `C = [2, 3]`. -/
theorem claim_C5_witness :
    ([1, 3] : List Int).Sorted (· < ·) ∧
    intersectIDs (some [1, 3]) (some [1, 3]) = some [1, 3] ∧
    combineIDs (some ([1, 3] : List Int)) (some [1]) =
      combineIDs (some [1]) (some [1, 3]) ∧
    excludeIDs (some ([1, 3] : List Int)) (some [1, 3]) = some [] ∧
    intersectIDs (some [1, 3]) (combineIDs (some [1]) (some [2, 3])) =
      combineIDs (intersectIDs (some [1, 3]) (some [1]))
        (intersectIDs (some [1, 3]) (some [2, 3])) := by
  have h := claim_C5 [1, 3] [1] [2, 3]
    (by simp) (by simp) (by simp) (by simp) (by simp) (by simp)
  exact ⟨by simp, h.1, h.2.1, h.2.2.1, h.2.2.2⟩

/-- C5 as frozen is false: with the ascending duplicate-free slices
`A = [1]`, `B = []`, `C = [2]` the distributive law fails, because the
empty slice `B` acts as the identity of `intersectIDs`, not as the empty
set: the left side is `[]` but the right side is `[1]`. -/
theorem claim_C5_counterexample :
    ([1] : List Int).Sorted (· < ·) ∧
    ([] : List Int).Sorted (· < ·) ∧
    ([2] : List Int).Sorted (· < ·) ∧
    intersectIDs (some [1]) (combineIDs (some ([] : List Int)) (some [2]))
      = some [] ∧
    combineIDs (intersectIDs (some ([1] : List Int)) (some []))
        (intersectIDs (some [1]) (some [2])) = some [1] ∧
    (some ([] : List Int)) ≠ some [1] := by
  refine ⟨by simp, by simp, by simp, ?_, ?_, by simp⟩
  · simp [intersectIDs, combineIDs, intersectLoop, combineLoop]
  · simp [intersectIDs, combineIDs, intersectLoop, combineLoop]

/-! ### Claim C10: nil/empty operands act as identities -/

/-- C10: the uid set operations treat a nil or empty operand as an
identity rather than as the empty set: `intersectIDs(A, nil) = A`,
`intersectIDs(A, M) = A` for non-nil empty `M`, `combineIDs(A, nil) = A`,
and `excludeIDs(nil, M) = nil`. -/
theorem claim_C10 :
    ∀ (A : List Int) (M : GoSlice),
      intersectIDs (some A) none = some A ∧
      intersectIDs (some A) (some []) = some A ∧
      combineIDs (some A) none = some A ∧
      excludeIDs none M = none := by
  intro A M
  refine ⟨rfl, ?_, rfl, ?_⟩
  · simp [intersectIDs]
  · cases M <;> rfl

/-! ### poster.go: MakeArchiveTrie (claim C7) -/

/-- Modelled from the spec: `IsAllDigits` (defined in a eutils source file
not present under src/) — true when every character is a digit. -/
def IsAllDigits (s : String) : Bool := s.data.all (·.isDigit)

/-- Modelled from the spec: `IsAllDigitsOrPeriod` (defined in a eutils
source file not present under src/) — true when every character is a digit
or a period. -/
def IsAllDigitsOrPeriod (s : String) : Bool :=
  s.data.all (fun c => c.isDigit || c = '.')

/-- The prefix scan of `MakeArchiveTrie` (poster.go): count a leading run
of letters, stopping at the first non-letter; an underscore there is
included in the count and raises the prefix limit from 4 to 6.
Returns `(k, max)`. -/
def archivePrefixLen : List Char → Nat × Nat
  | [] => (0, 4)
  | c :: cs =>
    if c.isAlpha then
      let p := archivePrefixLen cs
      (p.1 + 1, p.2)
    else if c = '_' then (1, 6)
    else (0, 4)

/-- The pair-splitting loop of `MakeArchiveTrie` (poster.go): walk the
remainder, stop at a period, replace spaces and non-alphanumerics by `_`,
and emit a `/` after every two characters (before the next one). -/
def archivePairs : List Char → Nat → Bool → List Char
  | [], _, _ => []
  | c :: cs, between, doSlash =>
    if c = '.' then []
    else
      let c' := if c = ' ' then '_'
                else if ¬(c.isAlpha || c.isDigit) then '_' else c
      let pre : List Char := if doSlash then ['/'] else []
      if between + 1 > 1 then pre ++ c' :: archivePairs cs 0 true
      else pre ++ c' :: archivePairs cs (between + 1) false

/-- Tail of `MakeArchiveTrie` (poster.go): guarantee a trailing slash and
upper-case the result. -/
def finishTrie (body : List Char) : String :=
  let res := if body.getLast? = some '/' then body else body ++ ['/']
  String.mk (res.map Char.toUpper)

theorem finishTrie_ne_empty (body : List Char) : finishTrie body ≠ "" := by
  unfold finishTrie
  by_cases hl : body.getLast? = some '/'
  · rw [if_pos hl]
    have hb : body ≠ [] := by
      intro h; rw [h] at hl; simp at hl
    intro h
    rw [String.ext_iff] at h
    simp only [String.data] at h
    simp at h
    exact hb h
  · rw [if_neg hl]
    intro h
    rw [String.ext_iff] at h
    simp only [String.data] at h
    simp at h

/-- `MakeArchiveTrie` (poster.go): pad all-digit identifiers to 8
characters, limit all-digit-or-period identifiers to the first 6
characters, strip a short letter prefix (up to 3 letters, or up to 4
letters followed by `_`) into a top directory, split the remainder into
character pairs, guarantee a trailing slash, and upper-case the result. -/
def MakeArchiveTrie (s : String) : String :=
  if s.length > 64 then ""
  else
    let s1 :=
      if IsAllDigits s ∧ s.length < 8 then
        String.mk (List.replicate (8 - s.length) '0') ++ s
      else s
    let s2 :=
      if IsAllDigitsOrPeriod s1 ∧ s1.length > 6 then
        String.mk (s1.data.take 6)
      else s1
    let km := archivePrefixLen s2.data
    let pfx := s2.data.take km.1
    let keepPfx := pfx.length < km.2
    let rest := if keepPfx then s2.data.drop km.1 else s2.data
    finishTrie
      ((if keepPfx ∧ pfx ≠ [] then pfx ++ ['/'] else []) ++
        archivePairs rest 0 false)

/-- The identifier-to-(directory, basename) mapping used by `stashRecord`
(rchive source): the version suffix starting at the first `.` is removed
from the identifier, the directory is `MakeArchiveTrie` of the stripped
identifier, and the file basename is the stripped identifier itself
(`fpath := path.Join(dpath, id+sfx)`). -/
def archivePath (id : String) : String × String :=
  let stripped := String.mk (id.data.takeWhile (· ≠ '.'))
  (MakeArchiveTrie stripped, stripped)

/-- C7 (amended): the archive trie pather maps the all-digit identifier
`"12345"` to the directory path `"00/01/23/"` — the identifier is padded
to `"00012345"` but the trie is limited to the first 6 characters — with
basename `"12345"` (the identifier is not padded in the file name), and
maps `"NP_060051.2"` to the directory `"NP_/06/00/51/"` with basename
`"NP_060051"`. -/
theorem claim_C7 :
    archivePath "12345" = ("00/01/23/", "12345") ∧
    archivePath "NP_060051.2" = ("NP_/06/00/51/", "NP_060051") := by
  constructor <;> rfl

/-- C7 as frozen is false: the directory for `"12345"` is `"00/01/23/"`,
not `"00/01/23/45/"`, and the basename is the unpadded `"12345"`, not
`"00012345"`. -/
theorem claim_C7_counterexample :
    (archivePath "12345").1 ≠ "00/01/23/45/" ∧
    (archivePath "12345").2 ≠ "00012345" := by
  constructor <;> decide

/-! ### rchive sources: CreateStashers / CreateFetchers (claims C2, C3) -/

/-- The archive on disk: a map from (trie directory, file basename) to the
stored bytes, modelled as an association list where the most recent write
for a key shadows older ones (`os.Create` truncates and overwrites). -/
abbrev Archive := List ((String × String) × String)

/-- `stashRecord` writes the payload and appends a terminating newline
when the payload does not already end in one (the gzip branch writes the
same bytes through a compressor, which `fetchRecord` transparently
reverses, so compression is not modelled). -/
def normalizePayload (str : String) : String :=
  -- strings.HasSuffix(str, "\n"): the suffix is a single character, so it
  -- holds exactly when the last character is a newline
  if str.data.getLast? = some '\n' then str else str ++ "\n"

/-- `stashRecord` (rchive source), sequential case: the version suffix
after the first `.` is stripped from the identifier, the record is skipped
when `MakeArchiveTrie` returns the empty string, and otherwise the file at
(trie, id) is created (truncating any previous contents) with the
newline-normalized payload.  In a sequential run the `inUse` map is empty
at every call, so `lockFile` always returns `OKAY` immediately and the
`index` argument (the version proxy) never influences the outcome. -/
def stashRecord (ar : Archive) (str id : String) (_index : Int) : Archive :=
  let stripped := String.mk (id.data.takeWhile (· ≠ '.'))
  let trie := MakeArchiveTrie stripped
  if trie = "" then ar
  else ((trie, stripped), normalizePayload str) :: ar

/-- `fetchRecord` (rchive source): compute the trie from the requested
file name (unstripped), return the file contents, or the empty string
when the identifier is empty, the trie is empty, or the file is absent. -/
def fetchRecord (ar : Archive) (file : String) : String :=
  let trie := MakeArchiveTrie file
  if file = "" ∨ trie = "" then ""
  else
    match ar.lookup (trie, file) with
    | some s => s
    | none => ""

/-- C2 (amended): `stash(id, p, v); fetch(id)` returns `p` up to
trailing-newline normalization; but for two payloads stashed sequentially
in either order the final `fetch(id)` returns the payload of the stash
applied **last**, regardless of the version numbers — the version is
stripped from the identifier and never compared, so the v2 payload
survives only when v2 is written last. -/
theorem claim_C2 (ar : Archive) (id p p1 p2 : String) (v v1 v2 : Int)
    (hne : id ≠ "") (hdot : '.' ∉ id.data) (hlen : id.length ≤ 64) :
    fetchRecord (stashRecord ar p id v) id = normalizePayload p ∧
    fetchRecord (stashRecord (stashRecord ar p1 id v1) p2 id v2) id =
      normalizePayload p2 := by
  have hstrip : String.mk (id.data.takeWhile (· ≠ '.')) = id := by
    cases id with
    | mk l =>
      have hdot' : '.' ∉ l := hdot
      congr 1
      apply List.takeWhile_eq_self_iff.2
      intro c hc
      have hc' : c ≠ '.' := fun h => hdot' (h ▸ hc)
      simp [hc']
  have htrie : MakeArchiveTrie id ≠ "" := by
    unfold MakeArchiveTrie
    have h64 : ¬ id.length > 64 := by omega
    rw [if_neg h64]
    apply finishTrie_ne_empty
  have hid : ¬ (id = "" ∨ MakeArchiveTrie id = "") := by
    rintro (h | h)
    · exact hne h
    · exact htrie h
  constructor
  · simp only [stashRecord, hstrip, if_neg htrie, fetchRecord, if_neg hid]
    simp [List.lookup]
  · simp only [stashRecord, hstrip, if_neg htrie, fetchRecord, if_neg hid]
    simp [List.lookup]

/-- Witness for C2: stashing payload `"A"` under identifier `"7"` with
version 1 and then `"B"` with version 2 ends with `fetch` returning
`"B\n"`; the single stash of `"A"` round-trips as `"A\n"`. -/
theorem claim_C2_witness :
    ("7" : String) ≠ "" ∧ '.' ∉ ("7" : String).data ∧
      ("7" : String).length ≤ 64 ∧
    fetchRecord (stashRecord [] "A" "7" 1) "7" = "A\n" ∧
    fetchRecord (stashRecord (stashRecord [] "A" "7" 1) "B" "7" 2) "7" =
      "B\n" := by
  have h := claim_C2 [] "7" "A" "A" "B" 1 1 2 (by decide) (by decide)
    (by decide)
  have ha : normalizePayload "A" = "A\n" := by decide
  have hb : normalizePayload "B" = "B\n" := by decide
  exact ⟨by decide, by decide, by decide, ha ▸ h.1, hb ▸ h.2⟩

/-- C2 as frozen is false: with `v1 = 1 < v2 = 2`, stashing the v2
payload `"new"` first and the v1 payload `"old"` second leaves `"old\n"`
in the archive — the final fetch returns the v1 payload, not the v2
payload, because `stashRecord` strips the version and a sequential later
write always overwrites. -/
theorem claim_C2_counterexample :
    (1 : Int) < 2 ∧
    fetchRecord (stashRecord (stashRecord [] "new" "7" 2) "old" "7" 1) "7"
      = "old\n" ∧
    ("old\n" : String) ≠ "new\n" := by
  refine ⟨by norm_num, ?_, by decide⟩
  decide

/-! ### CreateStashers: per-key write lock (claim C3) -/

/-- Result of `lockFile` (rchive source). -/
inductive StasherType
  | OKAY
  | WAIT
  | BAIL
deriving DecidableEq, Repr

/-- `lockFile` (rchive source): the `inUse` map sends an identifier to the
version (stream index) currently being written.  No entry: acquire the
lock.  Entry with a smaller version than the incoming one: `BAIL` (the
incoming write is skipped).  Entry with an equal or larger version:
`WAIT`. -/
def lockFile (inUse : List (String × Int)) (id : String) (index : Int) :
    StasherType × List (String × Int) :=
  match inUse.lookup id with
  | some idx =>
    if idx < index then (StasherType.BAIL, inUse)
    else (StasherType.WAIT, inUse)
  | none => (StasherType.OKAY, (id, index) :: inUse)

/-- Outcome of the `stashRecord` retry loop. -/
inductive StashOutcome
  | written
  | superseded
  | failed
deriving DecidableEq, Repr

/-- The retry loop of `stashRecord` (rchive source) for one identifier:
`env t` is what the `inUse` map holds for this identifier when the loop
checks the lock for the `t`-th time (other goroutines may free or take
the lock between attempts).  `attempts` starts at 5; each `WAIT` sleeps
about one second and decrements it, and when it reaches 0 the loop
reports an error.  `OKAY` proceeds to write; `BAIL` skips the record. -/
def stashLoop (env : Nat → Option Int) (index : Int) (t : Nat) :
    Nat → StashOutcome
  | 0 => StashOutcome.failed
  | attempts + 1 =>
    match env t with
    | none => StashOutcome.written
    | some idx =>
      if idx < index then StashOutcome.superseded
      else if attempts < 1 then StashOutcome.failed
      else stashLoop env index (t + 1) attempts

/-- The full retry policy of `stashRecord`: 5 attempts. -/
def stashOutcome (env : Nat → Option Int) (index : Int) : StashOutcome :=
  stashLoop env index 0 5

/-- C3 (amended): the per-key lock follows
`free → locked(v) → (written | superseded) → free`, but with these
transitions out of `locked(v')`: an incoming write with `v > v'` is
superseded (skipped); an incoming write with `v ≤ v'` — including
`v = v'` — waits, sleeping about one second and retrying up to 5
attempts, after which it reports an error; there is no upgrade-on-equal
transition.  From `free` the lock is acquired immediately and the write
proceeds. -/
theorem claim_C3 (inUse : List (String × Int)) (id : String) (v v' : Int)
    (env : Nat → Option Int)
    (hfree : inUse.lookup id = none)
    (hheld : ∀ t, env t = some v') :
    lockFile inUse id v = (StasherType.OKAY, (id, v) :: inUse) ∧
    (v' < v → lockFile ((id, v') :: inUse) id v =
      (StasherType.BAIL, (id, v') :: inUse)) ∧
    (v ≤ v' → lockFile ((id, v') :: inUse) id v =
      (StasherType.WAIT, (id, v') :: inUse)) ∧
    (v ≤ v' → stashOutcome env v = StashOutcome.failed) ∧
    ((∀ t, env t = none) → stashOutcome env v = StashOutcome.written) :=
  by
  refine ⟨?_, ?_, ?_, ?_, ?_⟩
  · simp [lockFile, hfree]
  · intro hlt
    simp [lockFile, hlt]
  · intro hle
    simp [lockFile, not_lt.2 hle]
  · intro hle
    have hnot : ¬ v' < v := not_lt.2 hle
    simp [stashOutcome, stashLoop, hheld, hnot]
  · intro hfreed
    simp [stashOutcome, stashLoop, hfreed]

/-- Witness for C3 with `id = "x"`, `v = 4`, `v' = 4` and a lock that is
held forever: the write waits and then fails; with the lock free it is
written. -/
theorem claim_C3_witness :
    ([] : List (String × Int)).lookup "x" = none ∧
    (∀ t : Nat, (fun _ : Nat => some (4 : Int)) t = some 4) ∧
    lockFile [] "x" 4 = (StasherType.OKAY, [("x", 4)]) ∧
    lockFile [("x", 4)] "x" 4 = (StasherType.WAIT, [("x", 4)]) ∧
    stashOutcome (fun _ => some 4) 4 = StashOutcome.failed := by
  have h := claim_C3 [] "x" 4 4 (fun _ => some 4) (by decide)
    (fun t => rfl)
  exact ⟨by decide, fun t => rfl, h.1, h.2.2.1 le_rfl, h.2.2.2.1 le_rfl⟩

/-- C3 as frozen is false on all three transitions out of `locked(v')`:
with the key locked at `v' = 7`, an incoming `v = 5 < v'` WAITs instead
of being superseded; an incoming `v = 9 > v'` BAILs (is superseded)
instead of waiting; and with the key locked at `v' = 5`, an incoming
`v = 5 = v'` WAITs — the lock is not upgraded. -/
theorem claim_C3_counterexample :
    lockFile [("x", 7)] "x" 5 = (StasherType.WAIT, [("x", 7)]) ∧
    lockFile [("x", 7)] "x" 9 = (StasherType.BAIL, [("x", 7)]) ∧
    lockFile [("x", 5)] "x" 5 = (StasherType.WAIT, [("x", 5)]) := by
  refine ⟨?_, ?_, ?_⟩ <;> decide

/-! ### invert.go: fusePostings in CreateMergers (claim C6) -/

/-- `positions[uid] = pos` on a Go map, modelled on an association list
that keeps first-insertion key order: an existing binding is replaced
(the attribute seen last wins), a missing key is appended. -/
def updateAssoc : List (String × String) → String → String → List (String × String)
  | [], k, v => [(k, v)]
  | (k', v') :: rest, k, v =>
    if k' = k then (k', v) :: rest
    else (k', v') :: updateAssoc rest k v

/-- `addIdents` (invert.go): look up the field's uid map, creating it when
missing, and store the position attribute under the uid (last wins). -/
def addIdents :
    List (String × List (String × String)) → String → String → String →
      List (String × List (String × String))
  | [], fld, pos, uid => [(fld, [(uid, pos)])]
  | (f, m) :: rest, fld, pos, uid =>
    if f = fld then (f, updateAssoc m uid pos) :: rest
    else (f, m) :: addIdents rest fld pos uid

/-- `addUID` (invert.go): every streamed element except `InvKey`
contributes `(tag = field, attr = position attribute, content = uid)`. -/
def addUID (fields : List (String × List (String × String)))
    (t : String × String × String) :
    List (String × List (String × String)) :=
  if t.1 = "InvKey" then fields else addIdents fields t.1 t.2.1 t.2.2

/-- The `fields` map built by `fusePostings` over all input fragments.
`StreamValues` visits the elements of each `<InvDocument>` fragment in
document order and the fragments are processed in slice order, so the
visit sequence is the flattened list of per-fragment element triples. -/
def buildFields (ts : List (String × String × String)) :
    List (String × List (String × String)) :=
  ts.foldl addUID []

/-- The uid comparator of `fusePostings` (invert.go): shorter string is
numerically less; same length falls back to string comparison.  This is
the reflexive closure used for sorting. -/
def numLE (a b : String) : Bool :=
  if a.length < b.length then true
  else if b.length < a.length then false
  else a ≤ b

/-- The duplicate-skipping emission loop of `fusePostings`: `last` starts
as the empty string and an element equal to the previous one is
skipped. -/
def skipDups : String → List String → List String
  | _, [] => []
  | last, u :: us => if u = last then skipDups last us else u :: skipDups u us

/-- The per-field body of the output loop of `fusePostings`: sort the
field's uids with the numeric-aware comparator (`sort.Slice` with the
strict comparator is modelled by insertion sort on its reflexive
closure; the keys are distinct, so any stable choice gives the same
list), skip duplicates, and emit each uid with its attribute. -/
def fuseField (fields : List (String × List (String × String)))
    (fld : String) : List (String × String) :=
  ((skipDups ""
      ((((fields.lookup fld).getD []).map Prod.fst).insertionSort
        (fun a b => numLE a b = true))).map
    (fun u => (u, (((fields.lookup fld).getD []).lookup u).getD "")))

/-- `fusePostings` (invert.go): build the field → uid → attribute map
from all fragments, sort fields alphabetically, and emit each field's
body via `fuseField`.  The surrounding XML serialization is abstracted
away: the result is the key plus, per field in output order, the emitted
`(uid, attribute)` pairs. -/
def fusePostings (key : String)
    (data : List (List (String × String × String))) :
    String × List (String × List (String × String)) :=
  (key,
    (((buildFields data.flatten).map Prod.fst).insertionSort (· ≤ ·)).map
      (fun fld => (fld, fuseField (buildFields data.flatten) fld)))

/-- Output accessor: the attribute stored for `uid` under `fld` in the
fused document, if any. -/
def fusedFor (out : List (String × List (String × String)))
    (fld uid : String) : Option String :=
  (out.lookup fld).bind (fun l => l.lookup uid)

/-- The position attribute of the last element triple for `(fld, uid)` in
the concatenated input stream. -/
def lastAttr (ts : List (String × String × String)) (fld uid : String) :
    Option String :=
  ((ts.filter (fun t => t.1 == fld && t.2.2 == uid)).getLast?).map
    (fun t => t.2.1)

theorem lookup_cons_eq {β : Type} (l : List (String × β)) (k : String)
    (v : β) : List.lookup k ((k, v) :: l) = some v := by
  simp [List.lookup]

theorem lookup_cons_ne {β : Type} (l : List (String × β)) {k k' : String}
    (v : β) (h : k' ≠ k) :
    List.lookup k' ((k, v) :: l) = List.lookup k' l := by
  have hb : (k' == k) = false := by simpa using h
  simp [List.lookup, hb]

theorem lookup_updateAssoc (m : List (String × String)) (k v k' : String) :
    (updateAssoc m k v).lookup k' = if k' = k then some v else m.lookup k' := by
  induction m with
  | nil =>
    by_cases h : k' = k
    · subst h; simp [updateAssoc, lookup_cons_eq]
    · rw [updateAssoc, lookup_cons_ne _ _ h, if_neg h]
  | cons p rest ih =>
    obtain ⟨k1, v1⟩ := p
    by_cases h1 : k1 = k
    · subst h1
      by_cases h : k' = k1
      · subst h; simp [updateAssoc, lookup_cons_eq]
      · simp [updateAssoc, lookup_cons_ne _ _ h, h]
    · by_cases h : k' = k1
      · subst h
        simp [updateAssoc, h1, lookup_cons_eq, Ne.symm h1]
      · simp [updateAssoc, h1, lookup_cons_ne _ _ h, ih]

theorem keys_updateAssoc (m : List (String × String)) (k v : String) :
    (updateAssoc m k v).map Prod.fst =
      if k ∈ m.map Prod.fst then m.map Prod.fst
      else m.map Prod.fst ++ [k] := by
  induction m with
  | nil => simp [updateAssoc]
  | cons p rest ih =>
    obtain ⟨k1, v1⟩ := p
    by_cases h1 : k1 = k
    · subst h1
      simp [updateAssoc]
    · simp only [updateAssoc, if_neg h1, List.map_cons, ih]
      by_cases h : k ∈ rest.map Prod.fst
      · simp [h, Ne.symm h1]
      · simp [h, Ne.symm h1]

theorem lookup_addIdents (fs : List (String × List (String × String)))
    (fld pos uid fld' : String) :
    (addIdents fs fld pos uid).lookup fld' =
      if fld' = fld then
        some (updateAssoc ((fs.lookup fld).getD []) uid pos)
      else fs.lookup fld' := by
  induction fs with
  | nil =>
    by_cases h : fld' = fld
    · subst h; simp [addIdents, lookup_cons_eq, updateAssoc, List.lookup]
    · rw [addIdents, lookup_cons_ne _ _ h, if_neg h]
  | cons p rest ih =>
    obtain ⟨f, m⟩ := p
    by_cases h1 : f = fld
    · subst h1
      by_cases h : fld' = f
      · subst h; simp [addIdents, lookup_cons_eq]
      · simp [addIdents, lookup_cons_ne _ _ h, h]
    · have h1' : fld ≠ f := fun hh => h1 hh.symm
      by_cases h : fld' = f
      · subst h
        simp [addIdents, h1, lookup_cons_eq, Ne.symm h1,
          lookup_cons_ne rest m h1']
      · simp [addIdents, h1, lookup_cons_ne _ _ h, ih,
          lookup_cons_ne rest m h1']

theorem keys_addIdents (fs : List (String × List (String × String)))
    (fld pos uid : String) :
    (addIdents fs fld pos uid).map Prod.fst =
      if fld ∈ fs.map Prod.fst then fs.map Prod.fst
      else fs.map Prod.fst ++ [fld] := by
  induction fs with
  | nil => simp [addIdents]
  | cons p rest ih =>
    obtain ⟨f, m⟩ := p
    by_cases h1 : f = fld
    · subst h1
      simp [addIdents]
    · simp only [addIdents, if_neg h1, List.map_cons, ih]
      by_cases h : fld ∈ rest.map Prod.fst
      · simp [h, Ne.symm h1]
      · simp [h, Ne.symm h1]

theorem lookup_ne_none_iff {β : Type} (l : List (String × β)) (k : String) :
    l.lookup k ≠ none ↔ k ∈ l.map Prod.fst := by
  induction l with
  | nil => simp [List.lookup]
  | cons p rest ih =>
    obtain ⟨k1, v1⟩ := p
    by_cases h : k = k1
    · subst h; simp [lookup_cons_eq]
    · simp [lookup_cons_ne _ _ h, ih, h]

theorem lookup_map_self {β : Type} (keys : List String) (F : String → β)
    (k : String) :
    ((keys.map (fun x => (x, F x))).lookup k) =
      if k ∈ keys then some (F k) else none := by
  induction keys with
  | nil => simp [List.lookup]
  | cons a rest ih =>
    by_cases h : k = a
    · subst h; simp [lookup_cons_eq]
    · simp [lookup_cons_ne _ _ h, ih, h]

theorem buildFields_append_one (ts : List (String × String × String))
    (t : String × String × String) :
    buildFields (ts ++ [t]) = addUID (buildFields ts) t := by
  simp [buildFields, List.foldl_append]

theorem lastAttr_append_one (ts : List (String × String × String))
    (t : String × String × String) (fld uid : String) :
    lastAttr (ts ++ [t]) fld uid =
      if t.1 = fld ∧ t.2.2 = uid then some t.2.1
      else lastAttr ts fld uid := by
  by_cases h : t.1 = fld ∧ t.2.2 = uid
  · have hb : (t.1 == fld && t.2.2 == uid) = true := by
      simp [h.1, h.2]
    simp [lastAttr, List.filter_append, hb, h, List.getLast?_append]
  · have hb : (t.1 == fld && t.2.2 == uid) = false := by
      rcases not_and_or.1 h with h' | h' <;> simp [h']
    simp [lastAttr, List.filter_append, hb, h]

theorem lookup_buildFields (ts : List (String × String × String))
    (fld uid : String) (hfld : fld ≠ "InvKey") :
    (((buildFields ts).lookup fld).getD []).lookup uid =
      lastAttr ts fld uid := by
  induction ts using List.reverseRecOn with
  | nil => simp [buildFields, lastAttr, List.lookup]
  | append_singleton ts t ih =>
    rw [buildFields_append_one, lastAttr_append_one]
    by_cases hk : t.1 = "InvKey"
    · have hne : ¬ (t.1 = fld ∧ t.2.2 = uid) := by
        rintro ⟨h1, _⟩; exact hfld (h1 ▸ hk)
      simp [addUID, hk, ih, Ne.symm hfld]
    · rw [addUID, if_neg hk]
      by_cases hf : fld = t.1
      · subst hf
        rw [lookup_addIdents]
        simp only [eq_self_iff_true, if_true, Option.getD_some]
        rw [lookup_updateAssoc]
        by_cases hu : uid = t.2.2
        · subst hu; simp
        · have hu' : ¬ t.2.2 = uid := fun h => hu h.symm
          simp [hu, hu', ih]
      · rw [lookup_addIdents, if_neg hf]
        have : ¬ (t.1 = fld ∧ t.2.2 = uid) := by
          rintro ⟨h1, _⟩; exact hf h1.symm
        simp [this, ih]

theorem inner_nodup_buildFields (ts : List (String × String × String))
    (fld : String) :
    ((((buildFields ts).lookup fld).getD []).map Prod.fst).Nodup := by
  induction ts using List.reverseRecOn with
  | nil => simp [buildFields, List.lookup]
  | append_singleton ts t ih =>
    rw [buildFields_append_one]
    by_cases hk : t.1 = "InvKey"
    · simpa [addUID, hk] using ih
    · rw [addUID, if_neg hk]
      by_cases hf : fld = t.1
      · subst hf
        rw [lookup_addIdents]
        simp only [eq_self_iff_true, if_true, Option.getD_some]
        rw [keys_updateAssoc]
        by_cases hm : t.2.2 ∈
            (((buildFields ts).lookup t.1).getD []).map Prod.fst
        · simpa [hm] using ih
        · simp only [if_neg hm]
          refine List.Nodup.append ih (List.nodup_singleton _) ?_
          intro x hx hx2
          rw [List.mem_singleton] at hx2
          exact hm (hx2 ▸ hx)
      · rw [lookup_addIdents, if_neg hf]
        exact ih

theorem inner_keys_sub (ts : List (String × String × String))
    (fld uid : String)
    (h : uid ∈ (((buildFields ts).lookup fld).getD []).map Prod.fst) :
    ∃ t ∈ ts, t.2.2 = uid := by
  induction ts using List.reverseRecOn with
  | nil => simp [buildFields, List.lookup] at h
  | append_singleton ts t ih =>
    rw [buildFields_append_one] at h
    by_cases hk : t.1 = "InvKey"
    · rw [addUID, if_pos hk] at h
      rcases ih h with ⟨t', ht', he⟩
      exact ⟨t', by simp [ht'], he⟩
    · rw [addUID, if_neg hk] at h
      by_cases hf : fld = t.1
      · subst hf
        rw [lookup_addIdents] at h
        simp only [eq_self_iff_true, if_true, Option.getD_some] at h
        rw [keys_updateAssoc] at h
        by_cases hm : t.2.2 ∈
            (((buildFields ts).lookup t.1).getD []).map Prod.fst
        · rw [if_pos hm] at h
          rcases ih h with ⟨t', ht', he⟩
          exact ⟨t', by simp [ht'], he⟩
        · rw [if_neg hm] at h
          rcases List.mem_append.1 h with h' | h'
          · rcases ih h' with ⟨t', ht', he⟩
            exact ⟨t', by simp [ht'], he⟩
          · have he : uid = t.2.2 := by simpa using h'
            exact ⟨t, by simp, he.symm⟩
      · rw [lookup_addIdents, if_neg hf] at h
        rcases ih h with ⟨t', ht', he⟩
        exact ⟨t', by simp [ht'], he⟩

theorem skipDups_sublist :
    ∀ (last : String) (l : List String),
      List.Sublist (skipDups last l) l := by
  intro last l
  induction l generalizing last with
  | nil => simp [skipDups]
  | cons u us ih =>
    by_cases h : u = last
    · simpa [skipDups, h] using (ih last).cons u
    · simpa [skipDups, h] using (ih u).cons₂ u

theorem skipDups_eq_self :
    ∀ (last : String) (l : List String), l.Nodup → last ∉ l →
      skipDups last l = l := by
  intro last l
  induction l generalizing last with
  | nil => intro _ _; simp [skipDups]
  | cons u us ih =>
    intro hnd hmem
    have h : u ≠ last := fun h => hmem (h ▸ List.mem_cons_self u us)
    have h2 : u ∉ us := (List.nodup_cons.1 hnd).1
    simp [skipDups, h, ih u (List.nodup_cons.1 hnd).2 h2]

theorem lastAttr_ne_none (ts : List (String × String × String))
    (fld uid : String) :
    lastAttr ts fld uid ≠ none ↔
      ∃ t ∈ ts, t.1 = fld ∧ t.2.2 = uid := by
  unfold lastAttr
  rw [ne_eq, Option.map_eq_none', List.getLast?_eq_none_iff]
  constructor
  · intro h
    rcases List.exists_mem_of_ne_nil _ h with ⟨t, ht⟩
    rcases List.mem_filter.1 ht with ⟨ht1, ht2⟩
    simp only [Bool.and_eq_true, beq_iff_eq] at ht2
    exact ⟨t, ht1, ht2⟩
  · rintro ⟨t, ht, h1, h2⟩ hnil
    have : t ∈ List.filter (fun t => t.1 == fld && t.2.2 == uid) ts :=
      List.mem_filter.2 ⟨ht, by simp [h1, h2]⟩
    rw [hnil] at this
    exact absurd this (List.not_mem_nil t)

/-- C6 (amended): `fusePostings` produces one fused document per term with
fields merged field-by-field — a uid appears under a field exactly when
some input fragment carries that `(field, uid)` element — uids within a
field deduplicated, and, when the same uid occurs more than once for a
field, the **last** position attribute seen retained. -/
theorem claim_C6 (key : String)
    (data : List (List (String × String × String))) (fld uid : String)
    (hfld : fld ≠ "InvKey")
    (hne : ∀ t ∈ data.flatten, t.2.2 ≠ "") :
    (fusePostings key data).1 = key ∧
    fusedFor (fusePostings key data).2 fld uid =
      lastAttr data.flatten fld uid ∧
    (fusedFor (fusePostings key data).2 fld uid ≠ none ↔
      ∃ t ∈ data.flatten, t.1 = fld ∧ t.2.2 = uid) ∧
    (∀ f l, (f, l) ∈ (fusePostings key data).2 → (l.map Prod.fst).Nodup) := by
  have hfields :
      fusedFor (fusePostings key data).2 fld uid =
        lastAttr data.flatten fld uid := by
    unfold fusedFor fusePostings
    rw [lookup_map_self]
    simp only [List.mem_insertionSort]
    by_cases hmem : fld ∈ (buildFields data.flatten).map Prod.fst
    · rw [if_pos hmem]
      simp only [Option.bind]
      unfold fuseField
      -- the sorted uid list has no duplicates and does not contain ""
      have hnd : ((((buildFields data.flatten).lookup fld).getD
          []).map Prod.fst).Nodup := inner_nodup_buildFields _ _
      have hnds : (((((buildFields data.flatten).lookup fld).getD
          []).map Prod.fst).insertionSort
            (fun a b => numLE a b = true)).Nodup :=
        (List.perm_insertionSort _ _).nodup_iff.2 hnd
      have hempty : "" ∉ ((((buildFields data.flatten).lookup fld).getD
          []).map Prod.fst).insertionSort (fun a b => numLE a b = true) := by
        intro h
        rw [(List.perm_insertionSort _ _).mem_iff] at h
        rcases inner_keys_sub _ _ _ h with ⟨t, ht, he⟩
        exact hne t ht he
      rw [skipDups_eq_self _ _ hnds hempty, lookup_map_self]
      simp only [List.mem_insertionSort]
      by_cases hu : uid ∈ (((buildFields data.flatten).lookup fld).getD
          []).map Prod.fst
      · rw [if_pos hu]
        have hlk : (((buildFields data.flatten).lookup fld).getD
            []).lookup uid ≠ none := (lookup_ne_none_iff _ _).2 hu
        rw [← lookup_buildFields _ _ _ hfld]
        cases hval : (((buildFields data.flatten).lookup fld).getD
            []).lookup uid with
        | none => exact absurd hval hlk
        | some a => simp [hval]
      · rw [if_neg hu]
        have hlk : (((buildFields data.flatten).lookup fld).getD
            []).lookup uid = none := by
          by_contra h
          exact hu ((lookup_ne_none_iff _ _).1 h)
        rw [← lookup_buildFields _ _ _ hfld, hlk]
    · rw [if_neg hmem]
      have hlk : ((buildFields data.flatten).lookup fld) = none := by
        by_contra h
        exact hmem ((lookup_ne_none_iff _ _).1 h)
      have := lookup_buildFields data.flatten fld uid hfld
      rw [hlk] at this
      simp only [Option.getD_none, List.lookup] at this
      simp [← this]
  refine ⟨rfl, hfields, ?_, ?_⟩
  · rw [hfields]
    exact lastAttr_ne_none _ _ _
  · intro f l hmem
    unfold fusePostings at hmem
    simp only [List.mem_map] at hmem
    rcases hmem with ⟨fld', _, heq⟩
    have hl : l = fuseField (buildFields data.flatten) fld' := by
      have := congrArg Prod.snd heq
      simpa using this.symm
    subst hl
    unfold fuseField
    rw [List.map_map]
    have hid : (Prod.fst ∘ fun u => (u,
        ((((buildFields data.flatten).lookup fld').getD
          []).lookup u).getD "")) = id := by
      funext u; rfl
    rw [hid, List.map_id]
    have hnd : ((((buildFields data.flatten).lookup fld').getD
        []).map Prod.fst).Nodup := inner_nodup_buildFields _ _
    have hnds := (List.perm_insertionSort
      (fun a b => numLE a b = true) _).nodup_iff.2 hnd
    exact hnds.sublist (skipDups_sublist _ _)

/-- Witness for C6: two fragments for term `"term"`, both carrying uid
`"10"` in field `"TIAB"`; the fused output equation and the presence law
hold at this concrete input. -/
theorem claim_C6_witness :
    ("TIAB" : String) ≠ "InvKey" ∧
    fusedFor (fusePostings "term"
        [[("TIAB", "p1", "10")], [("TIAB", "p2", "10")]]).2 "TIAB" "10" =
      lastAttr ([[("TIAB", "p1", "10")],
        [("TIAB", "p2", "10")]] : List (List (String × String × String))).flatten
        "TIAB" "10" := by
  have h := claim_C6 "term" [[("TIAB", "p1", "10")], [("TIAB", "p2", "10")]]
    "TIAB" "10" (by decide) (by decide)
  exact ⟨by decide, h.2.1⟩

/-- C6 as frozen is false: when uid `"10"` occurs in two fragments for
field `"TIAB"` with attributes `"p1"` then `"p2"`, the fused document
retains `"p2"` — the **last** attribute seen — not the first. -/
theorem claim_C6_counterexample :
    fusedFor (fusePostings "term"
        [[("TIAB", "p1", "10")], [("TIAB", "p2", "10")]]).2 "TIAB" "10" =
      some "p2" ∧
    some ("p2" : String) ≠ some "p1" := by
  exact ⟨by decide, by decide⟩

/-! ### poster.go: CreatePromoters buffers (claim C8) -/

/-- The five output buffers and three offset counters of `xmlPromoter`
(poster.go).  Byte buffers are modelled by lists of their logical
entries; the offset counters hold byte offsets exactly as in the source
(`retlength = 1` for the newline after each term, 4 bytes per uid,
2 bytes per position). -/
structure PromoState where
  termPos : Int
  postPos : Int
  ofstPos : Int
  indxList : List (Int × Int)
  termList : List String
  postList : List Int
  uqidList : List Int
  ofstList : List Int
deriving DecidableEq, Repr

def initPromo : PromoState := ⟨0, 0, 0, [], [], [], [], []⟩

/-- `addOnePosting` (poster.go).  The term, uid run and master pair are
always appended; the position data is appended only when the attribute
list is non-empty and parallel to the uid list.  Attributes are modelled
as already-parsed position lists (well-formed `pos` attributes with no
empty comma segments, the only case in which the Go byte counts agree
with the data written). -/
def addOnePosting (st : PromoState) (term : String) (data : List Int)
    (atts : List (List Int)) : PromoState :=
  let st1 : PromoState :=
    { st with
      termList := st.termList ++ [term]
      postList := st.postList ++ data
      indxList := st.indxList ++ [(st.termPos, st.postPos)]
      postPos := st.postPos + 4 * data.length
      termPos := st.termPos + (term.length + 1) }
  if atts.length < 1 then st1
  else if data.length ≠ atts.length then st1
  else
    atts.foldl (fun s att =>
      { s with
        uqidList := s.uqidList ++ [s.ofstPos]
        ofstList := s.ofstList ++ att
        ofstPos := s.ofstPos + 2 * att.length }) st1

/-- `topOffMaster` (poster.go): append the phantom (sentinel) master pair
and position-index entry holding the past-the-end offsets. -/
def topOffMaster (st : PromoState) : PromoState :=
  { st with
    indxList := st.indxList ++ [(st.termPos, st.postPos)]
    uqidList := st.uqidList ++ [st.ofstPos] }

/-- A promoter run over one (bucket, field): `processOneField` starts
from zeroed buffers, adds each extracted posting, and tops off the
master. -/
def promoteRun (inputs : List (String × List Int × List (List Int))) :
    PromoState :=
  topOffMaster (inputs.foldl
    (fun st p => addOnePosting st p.1 p.2.1 p.2.2) initPromo)

/-- The condition under which `writeFiveFiles` (poster.go) writes the
`.uqi` and `.ofs` files: both buffers non-empty. -/
def writesUqiOfs (st : PromoState) : Bool :=
  decide (0 < st.uqidList.length) && decide (0 < st.ofstList.length)

/-- The postings whose position attributes are actually recorded: a
non-empty attribute list parallel to the uid list. -/
def attsOK (p : String × List Int × List (List Int)) : Bool :=
  decide (1 ≤ p.2.2.length) && decide (p.2.1.length = p.2.2.length)

/-- The per-uid position lists recorded by a run, in order. -/
def flatAtts (inputs : List (String × List Int × List (List Int))) :
    List (List Int) :=
  (inputs.filter attsOK).flatMap (fun p => p.2.2)

/-- Closed form of the master pairs. -/
def masterScan (t0 p0 : Int) :
    List (String × List Int × List (List Int)) → List (Int × Int)
  | [] => []
  | p :: rest =>
    (t0, p0) :: masterScan (t0 + (p.1.length + 1))
      (p0 + 4 * p.2.1.length) rest

/-- Closed form of the `.uqi` entries. -/
def uqiScan (o0 : Int) : List (List Int) → List Int
  | [] => []
  | att :: rest => o0 :: uqiScan (o0 + 2 * att.length) rest

/-- Total term-list byte growth of a run. -/
def sumT (inputs : List (String × List Int × List (List Int))) : Int :=
  (inputs.map (fun p => (p.1.length : Int) + 1)).sum

/-- Total postings byte growth of a run. -/
def sumP (inputs : List (String × List Int × List (List Int))) : Int :=
  (inputs.map (fun p => 4 * (p.2.1.length : Int))).sum

/-- Total offset-list byte growth of a run. -/
def sumO (atts : List (List Int)) : Int :=
  (atts.map (fun a => 2 * (a.length : Int))).sum

theorem attsFold_spec (atts : List (List Int)) :
    ∀ s : PromoState,
      (atts.foldl (fun s att =>
        { s with
          uqidList := s.uqidList ++ [s.ofstPos]
          ofstList := s.ofstList ++ att
          ofstPos := s.ofstPos + 2 * att.length }) s) =
      { s with
        uqidList := s.uqidList ++ uqiScan s.ofstPos atts
        ofstList := s.ofstList ++ atts.flatten
        ofstPos := s.ofstPos + sumO atts } := by
  induction atts with
  | nil => intro s; simp [uqiScan, sumO]
  | cons att rest ih =>
    intro s
    rw [List.foldl_cons, ih]
    simp [uqiScan, sumO, List.append_assoc]
    ring

theorem addOnePosting_spec (st : PromoState) (term : String)
    (data : List Int) (atts : List (List Int)) :
    addOnePosting st term data atts =
      { termPos := st.termPos + (term.length + 1)
        postPos := st.postPos + 4 * data.length
        ofstPos := st.ofstPos +
          sumO (if attsOK (term, data, atts) then atts else [])
        indxList := st.indxList ++ [(st.termPos, st.postPos)]
        termList := st.termList ++ [term]
        postList := st.postList ++ data
        uqidList := st.uqidList ++ uqiScan st.ofstPos
          (if attsOK (term, data, atts) then atts else [])
        ofstList := st.ofstList ++
          (if attsOK (term, data, atts) then atts else []).flatten } := by
  by_cases h1 : atts.length < 1
  · have hok : attsOK (term, data, atts) = false := by
      simp [attsOK]; omega
    simp [addOnePosting, h1, hok, uqiScan, sumO]
  · by_cases h2 : data.length ≠ atts.length
    · have hok : attsOK (term, data, atts) = false := by
        simp [attsOK]; intro _; omega
      simp [addOnePosting, h1, h2, hok, uqiScan, sumO]
    · have hok : attsOK (term, data, atts) = true := by
        simp [attsOK]; omega
      rw [addOnePosting]
      simp only [if_neg h1, if_neg h2]
      rw [attsFold_spec]
      simp [hok]

theorem sumO_append (a b : List (List Int)) :
    sumO (a ++ b) = sumO a + sumO b := by
  simp [sumO]

theorem uqiScan_append (a b : List (List Int)) :
    ∀ o0, uqiScan o0 (a ++ b) = uqiScan o0 a ++ uqiScan (o0 + sumO a) b := by
  induction a with
  | nil => intro o0; simp [uqiScan, sumO]
  | cons x rest ih =>
    intro o0
    simp only [List.cons_append, uqiScan, List.append_eq, ih]
    have h : o0 + 2 * (x.length : Int) + sumO rest =
        o0 + sumO (x :: rest) := by
      simp only [sumO, List.map_cons, List.sum_cons]
      ring
    rw [h]

theorem flatAtts_cons (p : String × List Int × List (List Int))
    (rest : List (String × List Int × List (List Int))) :
    flatAtts (p :: rest) =
      (if attsOK p then p.2.2 else []) ++ flatAtts rest := by
  by_cases h : attsOK p <;> simp [flatAtts, List.filter_cons, h]

theorem promoFold_spec (inputs : List (String × List Int × List (List Int))) :
    ∀ st : PromoState,
      (inputs.foldl (fun st p => addOnePosting st p.1 p.2.1 p.2.2) st) =
      { termPos := st.termPos + sumT inputs
        postPos := st.postPos + sumP inputs
        ofstPos := st.ofstPos + sumO (flatAtts inputs)
        indxList := st.indxList ++ masterScan st.termPos st.postPos inputs
        termList := st.termList ++ inputs.map (fun p => p.1)
        postList := st.postList ++ inputs.flatMap (fun p => p.2.1)
        uqidList := st.uqidList ++ uqiScan st.ofstPos (flatAtts inputs)
        ofstList := st.ofstList ++ (flatAtts inputs).flatten } := by
  induction inputs with
  | nil =>
    intro st
    simp [sumT, sumP, sumO, flatAtts, masterScan, uqiScan]
  | cons p rest ih =>
    intro st
    rw [List.foldl_cons, addOnePosting_spec, ih]
    have hp : (p.1, p.2.1, p.2.2) = p := rfl
    rw [hp]
    simp only [PromoState.mk.injEq]
    refine ⟨?_, ?_, ?_, ?_, ?_, ?_, ?_, ?_⟩
    · simp [sumT]; ring
    · simp [sumP]; ring
    · rw [flatAtts_cons, sumO_append]; ring
    · simp [masterScan, List.append_assoc]
    · simp [List.append_assoc]
    · simp [List.append_assoc]
    · rw [flatAtts_cons, uqiScan_append, List.append_assoc]
    · rw [flatAtts_cons]
      simp [List.append_assoc]

theorem masterScan_length :
    ∀ (inputs : List (String × List Int × List (List Int))) (t0 p0 : Int),
      (masterScan t0 p0 inputs).length = inputs.length := by
  intro inputs
  induction inputs with
  | nil => intro t0 p0; simp [masterScan]
  | cons q rest ih => intro t0 p0; simp [masterScan, ih]

theorem uqiScan_length :
    ∀ (atts : List (List Int)) (o0 : Int),
      (uqiScan o0 atts).length = atts.length := by
  intro atts
  induction atts with
  | nil => intro o0; simp [uqiScan]
  | cons a rest ih => intro o0; simp [uqiScan, ih]

theorem masterScan_getZero (inputs : List (String × List Int × List (List Int)))
    (t0 p0 : Int) :
    ((masterScan t0 p0 inputs ++
      [(t0 + sumT inputs, p0 + sumP inputs)]).getD 0 (0, 0)) = (t0, p0) := by
  cases inputs with
  | nil => simp [masterScan, sumT, sumP]
  | cons q rest => simp [masterScan]

theorem uqiScan_getZero (atts : List (List Int)) (o0 : Int) :
    ((uqiScan o0 atts ++ [o0 + sumO atts]).getD 0 0) = o0 := by
  cases atts with
  | nil => simp [uqiScan, sumO]
  | cons a rest => simp [uqiScan]

theorem masterScan_delta :
    ∀ (inputs : List (String × List Int × List (List Int))) (t0 p0 : Int)
      (i : Nat), i < inputs.length →
      (((masterScan t0 p0 inputs ++
          [(t0 + sumT inputs, p0 + sumP inputs)]).getD (i+1) (0, 0)).1 -
        ((masterScan t0 p0 inputs ++
          [(t0 + sumT inputs, p0 + sumP inputs)]).getD i (0, 0)).1 - 1 =
        ((inputs.getD i ("", [], [])).1.length : Int)) ∧
      (((masterScan t0 p0 inputs ++
          [(t0 + sumT inputs, p0 + sumP inputs)]).getD (i+1) (0, 0)).2 -
        ((masterScan t0 p0 inputs ++
          [(t0 + sumT inputs, p0 + sumP inputs)]).getD i (0, 0)).2 =
        4 * ((inputs.getD i ("", [], [])).2.1.length : Int)) := by
  intro inputs
  induction inputs with
  | nil => intro t0 p0 i hi; simp at hi
  | cons q rest ih =>
    intro t0 p0 i hi
    have hs : t0 + sumT (q :: rest) =
        (t0 + (q.1.length + 1)) + sumT rest := by
      simp [sumT]; ring
    have hp : p0 + sumP (q :: rest) =
        (p0 + 4 * q.2.1.length) + sumP rest := by
      simp [sumP]; ring
    rw [masterScan, hs, hp, List.cons_append]
    cases i with
    | zero =>
      rw [List.getD_cons_succ, List.getD_cons_zero, masterScan_getZero]
      constructor
      · simp only [List.getD_cons_zero]
        ring
      · simp only [List.getD_cons_zero]
        ring
    | succ n =>
      rw [List.getD_cons_succ, List.getD_cons_succ, List.getD_cons_succ]
      have hn : n < rest.length := by simpa using hi
      exact ih (t0 + (q.1.length + 1)) (p0 + 4 * q.2.1.length) n hn

theorem uqiScan_delta :
    ∀ (atts : List (List Int)) (o0 : Int) (j : Nat), j < atts.length →
      ((uqiScan o0 atts ++ [o0 + sumO atts]).getD (j+1) 0 -
        (uqiScan o0 atts ++ [o0 + sumO atts]).getD j 0 =
        2 * ((atts.getD j []).length : Int)) := by
  intro atts
  induction atts with
  | nil => intro o0 j hj; simp at hj
  | cons a rest ih =>
    intro o0 j hj
    have hs : o0 + sumO (a :: rest) =
        (o0 + 2 * a.length) + sumO rest := by
      simp [sumO]; ring
    rw [uqiScan, hs, List.cons_append]
    cases j with
    | zero =>
      rw [List.getD_cons_succ, List.getD_cons_zero, uqiScan_getZero]
      simp only [List.getD_cons_zero]
      ring
    | succ n =>
      rw [List.getD_cons_succ, List.getD_cons_succ, List.getD_cons_succ]
      have hn : n < rest.length := by simpa using hj
      exact ih (o0 + 2 * a.length) n hn

theorem promoteRun_spec (inputs : List (String × List Int × List (List Int))) :
    promoteRun inputs =
      { termPos := sumT inputs
        postPos := sumP inputs
        ofstPos := sumO (flatAtts inputs)
        indxList := masterScan 0 0 inputs ++ [(sumT inputs, sumP inputs)]
        termList := inputs.map (fun p => p.1)
        postList := inputs.flatMap (fun p => p.2.1)
        uqidList := uqiScan 0 (flatAtts inputs) ++ [sumO (flatAtts inputs)]
        ofstList := (flatAtts inputs).flatten } := by
  unfold promoteRun topOffMaster initPromo
  rw [promoFold_spec]
  simp

/-- C8: in every promoted (bucket, field) five-file set,
`mst[i+1].term_offset − mst[i].term_offset − 1` is the length of term `i`;
`mst[i+1].post_offset − mst[i].post_offset` is 4 times the uid count of
term `i`; `uqi[j+1] − uqi[j]` is 2 times the position count of uid `j`
(counting, in order, the uids of postings whose attribute list is
non-empty and parallel to the uid list); and the `.uqi`/`.ofs` files are
absent exactly when no position attribute is recorded. -/
theorem claim_C8 (inputs : List (String × List Int × List (List Int)))
    (i j : Nat) (hi : i < inputs.length)
    (hj : j < (flatAtts inputs).length) :
    (promoteRun inputs).indxList.length = inputs.length + 1 ∧
    ((promoteRun inputs).indxList.getD (i+1) (0, 0)).1 -
        ((promoteRun inputs).indxList.getD i (0, 0)).1 - 1 =
      ((inputs.getD i ("", [], [])).1.length : Int) ∧
    ((promoteRun inputs).indxList.getD (i+1) (0, 0)).2 -
        ((promoteRun inputs).indxList.getD i (0, 0)).2 =
      4 * ((inputs.getD i ("", [], [])).2.1.length : Int) ∧
    (promoteRun inputs).uqidList.length = (flatAtts inputs).length + 1 ∧
    (promoteRun inputs).uqidList.getD (j+1) 0 -
        (promoteRun inputs).uqidList.getD j 0 =
      2 * (((flatAtts inputs).getD j []).length : Int) ∧
    ((∀ p ∈ inputs, p.2.2 = []) →
      (promoteRun inputs).ofstList = [] ∧
        writesUqiOfs (promoteRun inputs) = false) ∧
    ((promoteRun inputs).ofstList ≠ [] →
      writesUqiOfs (promoteRun inputs) = true) := by
  have hM := masterScan_delta inputs 0 0 i hi
  have hU := uqiScan_delta (flatAtts inputs) 0 j hj
  simp only [zero_add] at hM hU
  rw [promoteRun_spec]
  refine ⟨?_, hM.1, hM.2, ?_, hU, ?_, ?_⟩
  · simp [masterScan_length]
  · simp [uqiScan_length]
  · intro hall
    have hflat : flatAtts inputs = [] := by
      have : inputs.filter attsOK = [] := by
        rw [List.filter_eq_nil_iff]
        intro p hp
        simp [attsOK, hall p hp]
      simp [flatAtts, this]
    simp [hflat, writesUqiOfs, uqiScan, sumO]
  · intro hne
    have h1 : 0 < ((flatAtts inputs).flatten).length :=
      List.length_pos.2 hne
    simp only [writesUqiOfs]
    rw [Bool.and_eq_true, decide_eq_true_iff, decide_eq_true_iff]
    exact ⟨by simp, h1⟩

/-- Witness for C8 at the run
`[("ab", [10, 20], [[1, 2], [7]]), ("c", [30], [])]` with `i = 0`,
`j = 1`: there are 3 master entries, the first term-offset delta is the
length 2 of `"ab"` plus the newline, the first posting delta is 8 bytes,
and the second uqi delta is 2 bytes for the single position of uid 20. -/
theorem claim_C8_witness :
    (0 : Nat) <
      ([("ab", [10, 20], [[1, 2], [7]]), ("c", [30], [])] :
        List (String × List Int × List (List Int))).length ∧
    (1 : Nat) < (flatAtts
      [("ab", [10, 20], [[1, 2], [7]]), ("c", [30], [])]).length ∧
    (promoteRun [("ab", [10, 20], [[1, 2], [7]]),
      ("c", [30], [])]).indxList.length = 3 ∧
    ((promoteRun [("ab", [10, 20], [[1, 2], [7]]),
        ("c", [30], [])]).indxList.getD 1 (0, 0)).1 -
      ((promoteRun [("ab", [10, 20], [[1, 2], [7]]),
        ("c", [30], [])]).indxList.getD 0 (0, 0)).1 - 1 = 2 ∧
    (promoteRun [("ab", [10, 20], [[1, 2], [7]]),
        ("c", [30], [])]).uqidList.getD 2 0 -
      (promoteRun [("ab", [10, 20], [[1, 2], [7]]),
        ("c", [30], [])]).uqidList.getD 1 0 = 2 := by
  have h := claim_C8 [("ab", [10, 20], [[1, 2], [7]]), ("c", [30], [])]
    0 1 (by decide) (by decide)
  refine ⟨by decide, by decide, h.1, ?_, ?_⟩
  · have := h.2.1
    simpa using this
  · have := h.2.2.2.2.1
    simpa using this

/-! ### xml.go: CreateXMLUnshuffler (claim C9) -/

/-- `XMLRecord` (xml.go).  The binary `Data` field is carried through the
unshuffler exactly like `Text` and is folded into it here. -/
structure XMLRecord where
  index : Nat
  ident : String
  text : String
deriving DecidableEq, Repr

/-- `heap.Push` on `xmlRecordHeap`: a min-heap ordered by `Index`,
modelled as a list kept sorted by index (ties, which cannot occur for a
permutation input, go after existing entries). -/
def heapPush : List XMLRecord → XMLRecord → List XMLRecord
  | [], r => [r]
  | x :: xs, r =>
    if r.index < x.index then r :: x :: xs else x :: heapPush xs r

/-- The inner drain loop of `xmlUnshuffler` (xml.go): pop the smallest
record while its index is at most `next`, emitting it and advancing
`next` on an exact match; a record with index beyond `next` is pushed
back and the loop waits for more input.  Returns (emitted, heap, next). -/
def drainHeap : List XMLRecord → Nat → List XMLRecord × List XMLRecord × Nat
  | [], next => ([], [], next)
  | r :: hs, next =>
    if next < r.index then ([], r :: hs, next)
    else
      let next' := if r.index = next then next + 1 else next
      let res := drainHeap hs next'
      (r :: res.1, res.2.1, res.2.2)

/-- The state of `xmlUnshuffler`: heap, next expected index, the delay
counter that batches `heapSize` pushes between drains, and the emitted
output. -/
structure UnshufState where
  hp : List XMLRecord
  next : Nat
  delay : Nat
  out : List XMLRecord
deriving Repr

/-- One loop iteration of `xmlUnshuffler`: push the arrival; for the
first `heapSize` arrivals of a batch only bump the delay counter,
otherwise reset it and drain. -/
def unshufStep (hsz : Nat) (st : UnshufState) (r : XMLRecord) : UnshufState :=
  let hp := heapPush st.hp r
  if st.delay < hsz then
    { st with hp := hp, delay := st.delay + 1 }
  else
    { hp := (drainHeap hp st.next).2.1
      next := (drainHeap hp st.next).2.2
      delay := 0
      out := st.out ++ (drainHeap hp st.next).1 }

/-- `CreateXMLUnshuffler` (xml.go) as a function of the whole arrival
sequence: fold the loop body over the arrivals, then flush the remaining
heap in index order. -/
def unshuffle (hsz : Nat) (inp : List XMLRecord) : List XMLRecord :=
  (inp.foldl (unshufStep hsz) ⟨[], 1, 0, []⟩).out ++
    (inp.foldl (unshufStep hsz) ⟨[], 1, 0, []⟩).hp

theorem heapPush_perm (hp : List XMLRecord) (r : XMLRecord) :
    (heapPush hp r).Perm (r :: hp) := by
  induction hp with
  | nil => simp [heapPush]
  | cons x xs ih =>
    by_cases hlt : r.index < x.index
    · rw [heapPush, if_pos hlt]
    · rw [heapPush, if_neg hlt]
      exact (ih.cons x).trans (List.Perm.swap r x xs)

theorem heapPush_sorted (hp : List XMLRecord) (r : XMLRecord)
    (h : hp.Sorted (fun a b => a.index ≤ b.index)) :
    (heapPush hp r).Sorted (fun a b => a.index ≤ b.index) := by
  induction hp with
  | nil => simp [heapPush]
  | cons x xs ih =>
    rw [List.sorted_cons] at h
    by_cases hlt : r.index < x.index
    · rw [heapPush, if_pos hlt]
      refine List.sorted_cons.2 ⟨?_, List.sorted_cons.2 h⟩
      intro b hb
      rcases List.mem_cons.1 hb with rfl | hb
      · exact le_of_lt hlt
      · exact le_trans (le_of_lt hlt) (h.1 b hb)
    · rw [heapPush, if_neg hlt]
      refine List.sorted_cons.2 ⟨?_, ih h.2⟩
      intro b hb
      have := (heapPush_perm xs r).mem_iff.1 hb
      rcases List.mem_cons.1 this with rfl | hb'
      · exact le_of_not_lt hlt
      · exact h.1 b hb'

theorem drainHeap_spec :
    ∀ (hp : List XMLRecord) (next : Nat),
      hp.Sorted (fun a b => a.index ≤ b.index) →
      (∀ r ∈ hp, next ≤ r.index) →
      (hp.map XMLRecord.index).Nodup →
      hp = (drainHeap hp next).1 ++ (drainHeap hp next).2.1 ∧
      ((drainHeap hp next).1).map XMLRecord.index =
        List.range' next ((drainHeap hp next).1).length ∧
      (drainHeap hp next).2.2 = next + ((drainHeap hp next).1).length ∧
      (∀ r ∈ (drainHeap hp next).2.1,
        (drainHeap hp next).2.2 ≤ r.index) := by
  intro hp
  induction hp with
  | nil =>
    intro next _ _ _
    refine ⟨rfl, rfl, by simp [drainHeap], by simp [drainHeap]⟩
  | cons r hs ih =>
    intro next hsort hge hnd
    by_cases hlt : next < r.index
    · rw [List.sorted_cons] at hsort
      refine ⟨by simp [drainHeap, hlt], by simp [drainHeap, hlt],
        by simp [drainHeap, hlt], ?_⟩
      intro x hx
      simp only [drainHeap, if_pos hlt] at hx ⊢
      exact hge x hx
    · have heq : r.index = next :=
        le_antisymm (le_of_not_lt hlt) (hge r (List.mem_cons_self r hs))
      rw [List.sorted_cons] at hsort
      rw [List.map_cons, List.nodup_cons] at hnd
      have hge' : ∀ x ∈ hs, next + 1 ≤ x.index := by
        intro x hx
        have h1 : next ≤ x.index := heq ▸ hsort.1 x hx
        have h2 : x.index ≠ next := by
          intro h
          apply hnd.1
          have hre : r.index = x.index := by rw [heq, h]
          rw [hre]
          exact List.mem_map_of_mem XMLRecord.index hx
        omega
      have hd := ih (next + 1) hsort.2 hge' hnd.2
      have hstep : drainHeap (r :: hs) next =
          (r :: (drainHeap hs (next + 1)).1,
            (drainHeap hs (next + 1)).2.1,
            (drainHeap hs (next + 1)).2.2) := by
        rw [drainHeap, if_neg hlt, if_pos heq]
      rw [hstep]
      refine ⟨?_, ?_, ?_, ?_⟩
      · simpa using hd.1
      · simp only [List.map_cons, List.length_cons, hd.2.1, heq]
        rw [List.range'_succ]
      · simp only [List.length_cons, hd.2.2.1]
        omega
      · exact hd.2.2.2

theorem unshufFold_spec (hsz : Nat) :
    ∀ (rest : List XMLRecord) (st : UnshufState),
      st.hp.Sorted (fun a b => a.index ≤ b.index) →
      st.next = st.out.length + 1 →
      st.out.map XMLRecord.index = List.range' 1 st.out.length →
      (∀ r ∈ st.hp, st.next ≤ r.index) →
      (((st.out ++ st.hp).map XMLRecord.index ++
        rest.map XMLRecord.index)).Nodup →
      (∀ r ∈ rest, 1 ≤ r.index) →
      ((rest.foldl (unshufStep hsz) st).out ++
        (rest.foldl (unshufStep hsz) st).hp).Perm
          ((st.out ++ st.hp) ++ rest) ∧
      (rest.foldl (unshufStep hsz) st).hp.Sorted
        (fun a b => a.index ≤ b.index) ∧
      (rest.foldl (unshufStep hsz) st).next =
        (rest.foldl (unshufStep hsz) st).out.length + 1 ∧
      (rest.foldl (unshufStep hsz) st).out.map XMLRecord.index =
        List.range' 1 (rest.foldl (unshufStep hsz) st).out.length ∧
      (∀ r ∈ (rest.foldl (unshufStep hsz) st).hp,
        (rest.foldl (unshufStep hsz) st).next ≤ r.index) := by
  intro rest
  induction rest with
  | nil =>
    intro st h1 h2 h3 h4 _ _
    exact ⟨by simp, h1, h2, h3, h4⟩
  | cons r rs ih =>
    intro st h1 h2 h3 h4 hnd hone
    -- the incoming record's index is at least next: it is distinct from
    -- every already-emitted index 1 .. next-1
    have hrdx : st.next ≤ r.index := by
      have hmem : r.index ∉ (st.out ++ st.hp).map XMLRecord.index := by
        have hdisj := (List.nodup_append.1 hnd).2.2
        intro hin
        exact hdisj hin (by simp)
      have hout : r.index ∉ st.out.map XMLRecord.index := by
        intro hin
        exact hmem (by simp [hin])
      rw [h3, List.mem_range'_1] at hout
      have h1r : 1 ≤ r.index := hone r (List.mem_cons_self r rs)
      omega
    have hperm1 : (heapPush st.hp r).Perm (r :: st.hp) := heapPush_perm _ _
    have hsort1 : (heapPush st.hp r).Sorted (fun a b => a.index ≤ b.index) :=
      heapPush_sorted _ _ h1
    have hge1 : ∀ x ∈ heapPush st.hp r, st.next ≤ x.index := by
      intro x hx
      rcases List.mem_cons.1 (hperm1.mem_iff.1 hx) with rfl | hx'
      · exact hrdx
      · exact h4 x hx'
    have hp1 : (st.out ++ heapPush st.hp r).Perm
        ((st.out ++ st.hp) ++ [r]) := by
      refine (hperm1.append_left st.out).trans ?_
      rw [List.append_assoc]
      refine List.Perm.append_left st.out ?_
      simpa using
        (List.perm_append_comm : ([r] ++ st.hp).Perm (st.hp ++ [r]))
    -- threading the no-duplicate-indices hypothesis through one step
    have hndstep : ∀ st1 : UnshufState,
        (st1.out ++ st1.hp).Perm ((st.out ++ st.hp) ++ [r]) →
        (((st1.out ++ st1.hp).map XMLRecord.index ++
          rs.map XMLRecord.index)).Nodup := by
      intro st1 hq
      have h5 := (hq.map XMLRecord.index).append_right
        (rs.map XMLRecord.index)
      have he : ((((st.out ++ st.hp) ++ [r]).map XMLRecord.index) ++
          rs.map XMLRecord.index) =
          ((st.out ++ st.hp).map XMLRecord.index ++
            (r :: rs).map XMLRecord.index) := by
        simp
      rw [he] at h5
      exact h5.nodup_iff.2 hnd
    by_cases hdel : st.delay < hsz
    · -- batching: push without draining
      have hstep : unshufStep hsz st r =
          ⟨heapPush st.hp r, st.next, st.delay + 1, st.out⟩ := by
        rw [unshufStep, if_pos hdel]
      rw [List.foldl_cons, hstep]
      have hrec := ih ⟨heapPush st.hp r, st.next, st.delay + 1, st.out⟩
        hsort1 h2 h3 hge1 (hndstep _ hp1)
        (fun x hx => hone x (List.mem_cons_of_mem r hx))
      refine ⟨hrec.1.trans ?_, hrec.2.1, hrec.2.2.1, hrec.2.2.2.1,
        hrec.2.2.2.2⟩
      rw [show (st.out ++ st.hp) ++ (r :: rs) =
        ((st.out ++ st.hp) ++ [r]) ++ rs by simp]
      exact hp1.append_right rs
    · -- drain after the batch
      have hndfull := hndstep ⟨heapPush st.hp r, st.next, 0, st.out⟩ hp1
      have h5 : ((st.out ++ heapPush st.hp r).map XMLRecord.index).Nodup :=
        (List.nodup_append.1 hndfull).1
      have hnd1 : ((heapPush st.hp r).map XMLRecord.index).Nodup := by
        rw [List.map_append] at h5
        exact (List.nodup_append.1 h5).2.1
      have hd := drainHeap_spec (heapPush st.hp r) st.next hsort1 hge1 hnd1
      have hstep : unshufStep hsz st r =
          { hp := (drainHeap (heapPush st.hp r) st.next).2.1
            next := (drainHeap (heapPush st.hp r) st.next).2.2
            delay := 0
            out := st.out ++ (drainHeap (heapPush st.hp r) st.next).1 } := by
        rw [unshufStep, if_neg hdel]
      rw [List.foldl_cons, hstep]
      have hsort' : ((drainHeap (heapPush st.hp r) st.next).2.1).Sorted
          (fun a b => a.index ≤ b.index) := by
        have hsub := List.sublist_append_right
          ((drainHeap (heapPush st.hp r) st.next).1)
          ((drainHeap (heapPush st.hp r) st.next).2.1)
        rw [← hd.1] at hsub
        exact hsort1.sublist hsub
      have hnext' : (drainHeap (heapPush st.hp r) st.next).2.2 =
          (st.out ++ (drainHeap (heapPush st.hp r) st.next).1).length + 1 := by
        rw [hd.2.2.1, h2, List.length_append]
        omega
      have hout' : ((st.out ++
          (drainHeap (heapPush st.hp r) st.next).1).map XMLRecord.index) =
          List.range' 1
            (st.out ++ (drainHeap (heapPush st.hp r) st.next).1).length := by
        rw [List.map_append, h3, hd.2.1, List.length_append]
        have hra := List.range'_append_1 1 st.out.length
          ((drainHeap (heapPush st.hp r) st.next).1).length
        rw [show (1 : Nat) + st.out.length = st.out.length + 1 by omega,
          ← h2] at hra
        rw [hra, Nat.add_comm]
      have hq : ((st.out ++ (drainHeap (heapPush st.hp r) st.next).1) ++
          (drainHeap (heapPush st.hp r) st.next).2.1).Perm
          ((st.out ++ st.hp) ++ [r]) := by
        rw [List.append_assoc, ← hd.1]
        exact hp1
      have hrec := ih ⟨(drainHeap (heapPush st.hp r) st.next).2.1,
          (drainHeap (heapPush st.hp r) st.next).2.2, 0,
          st.out ++ (drainHeap (heapPush st.hp r) st.next).1⟩
        hsort' hnext' hout' hd.2.2.2 (hndstep _ hq)
        (fun x hx => hone x (List.mem_cons_of_mem r hx))
      refine ⟨hrec.1.trans ?_, hrec.2.1, hrec.2.2.1, hrec.2.2.2.1,
        hrec.2.2.2.2⟩
      rw [show (st.out ++ st.hp) ++ (r :: rs) =
        ((st.out ++ st.hp) ++ [r]) ++ rs by simp]
      exact hq.append_right rs

/-- C9: for every arrival sequence whose indices form a permutation of
`1..n` — any arrival order, hence any worker count or scheduling — the
unshuffler emits exactly one output per input record (the output is a
permutation of the input, so empty-text records are emitted too) and the
output indices are `1..n` in ascending order. -/
theorem claim_C9 (hsz : Nat) (inp : List XMLRecord) (n : Nat)
    (hperm : (inp.map XMLRecord.index).Perm (List.range' 1 n)) :
    (unshuffle hsz inp).map XMLRecord.index = List.range' 1 n ∧
    (unshuffle hsz inp).Perm inp := by
  have hnd : (inp.map XMLRecord.index).Nodup :=
    hperm.nodup_iff.2 (List.nodup_range' 1 n)
  have hone : ∀ r ∈ inp, 1 ≤ r.index := by
    intro r hr
    have hmem : r.index ∈ List.range' 1 n :=
      hperm.mem_iff.1 (List.mem_map_of_mem XMLRecord.index hr)
    exact (List.mem_range'_1.1 hmem).1
  have h := unshufFold_spec hsz inp ⟨[], 1, 0, []⟩ (by simp) (by simp)
    (by simp) (by simp) (by simpa using hnd) hone
  have hpm : ((inp.foldl (unshufStep hsz) ⟨[], 1, 0, []⟩).out ++
      (inp.foldl (unshufStep hsz) ⟨[], 1, 0, []⟩).hp).Perm inp := by
    have := h.1
    simpa using this
  refine ⟨?_, hpm⟩
  have hidx : (((inp.foldl (unshufStep hsz) ⟨[], 1, 0, []⟩).out ++
      (inp.foldl (unshufStep hsz) ⟨[], 1, 0, []⟩).hp).map
        XMLRecord.index).Perm (List.range' 1 n) :=
    (hpm.map XMLRecord.index).trans hperm
  have hlen : (inp.foldl (unshufStep hsz) ⟨[], 1, 0, []⟩).out.length +
      (inp.foldl (unshufStep hsz) ⟨[], 1, 0, []⟩).hp.length = n := by
    have h1 := hidx.length_eq
    simpa using h1
  have hsplit : List.range' 1 n =
      List.range' 1 (inp.foldl (unshufStep hsz) ⟨[], 1, 0, []⟩).out.length ++
        List.range'
          (1 + (inp.foldl (unshufStep hsz) ⟨[], 1, 0, []⟩).out.length)
          (inp.foldl (unshufStep hsz) ⟨[], 1, 0, []⟩).hp.length := by
    rw [List.range'_append_1]
    congr 1
    omega
  have hhp : ((inp.foldl (unshufStep hsz) ⟨[], 1, 0, []⟩).hp.map
      XMLRecord.index).Perm
      (List.range'
        (1 + (inp.foldl (unshufStep hsz) ⟨[], 1, 0, []⟩).out.length)
        (inp.foldl (unshufStep hsz) ⟨[], 1, 0, []⟩).hp.length) := by
    have h2 := hidx
    rw [hsplit, List.map_append, h.2.2.2.1] at h2
    exact (List.perm_append_left_iff _).1 h2
  have hsorted1 : ((inp.foldl (unshufStep hsz) ⟨[], 1, 0, []⟩).hp.map
      XMLRecord.index).Sorted (· ≤ ·) :=
    List.pairwise_map.2 h.2.1
  have hsorted2 : (List.range'
      (1 + (inp.foldl (unshufStep hsz) ⟨[], 1, 0, []⟩).out.length)
      (inp.foldl (unshufStep hsz) ⟨[], 1, 0, []⟩).hp.length).Sorted
        (· ≤ ·) :=
    (List.pairwise_lt_range' _ _ 1 (by simp)).imp le_of_lt
  have heq := List.eq_of_perm_of_sorted hhp hsorted1 hsorted2
  rw [unshuffle, List.map_append, h.2.2.2.1, heq, ← hsplit]

/-- Witness for C9: three records arriving in the order 2, 1, 3 (record
1 has empty text) come out as 1, 2, 3 with heap batch size 1. -/
theorem claim_C9_witness :
    ((([⟨2, "b", "tb"⟩, ⟨1, "a", ""⟩, ⟨3, "c", "tc"⟩] :
        List XMLRecord).map XMLRecord.index).Perm (List.range' 1 3)) ∧
    (unshuffle 1 [⟨2, "b", "tb"⟩, ⟨1, "a", ""⟩, ⟨3, "c", "tc"⟩]).map
      XMLRecord.index = List.range' 1 3 ∧
    (unshuffle 1 [⟨2, "b", "tb"⟩, ⟨1, "a", ""⟩, ⟨3, "c", "tc"⟩]).Perm
      [⟨2, "b", "tb"⟩, ⟨1, "a", ""⟩, ⟨3, "c", "tc"⟩] := by
  have h := claim_C9 1 [⟨2, "b", "tb"⟩, ⟨1, "a", ""⟩, ⟨3, "c", "tc"⟩] 3
    (by decide)
  exact ⟨by decide, h.1, h.2⟩

/-! ### phrase.go: the query evaluator (claims C1, C4)

The promoted postings store on disk is abstracted as a function
`pstore : String → GoSlice × GoOfst` giving, for a term, the uid slab and
the per-uid position arrays that `getPostingIDs` would return for the
default `TIAB` field (`(none, none)` for an unknown term).  The model
covers phrases without a `[FIELD]` qualifier — the default-field path of
`eval` — which is the only path the claims exercise; `[PIPE]` reads
stdin and is outside a pure model. -/

/-- A Go `[][]int16` of per-uid position arrays: `none` is the nil
slice. -/
abbrev GoOfst := Option (List (List Int))

/-- `len(x) < 1` on a Go slice (nil has length 0). -/
def lenLt1 (s : GoSlice) : Bool :=
  match s with
  | none => true
  | some l => l.length < 1

/-- `phrasePositions` (closure in `evaluateQuery`, phrase.go): merge two
sorted position lists, recording the first-word position `vn` whenever
`vn + dlt` meets a position of the second word.  (The Go code indexes
`pn[0]`/`pm[0]` unconditionally; empty inputs, which a well-formed store
never produces, return `[]` here.) -/
def phrasePositions (pn pm : List Int) (dlt : Int) : List Int :=
  match pn, pm with
  | [], _ => []
  | _, [] => []
  | vn :: qs, vm :: rs =>
    if vn + dlt > vm then phrasePositions (vn :: qs) rs dlt
    else if vn + dlt < vm then phrasePositions qs (vm :: rs) dlt
    else vn :: phrasePositions qs rs dlt
termination_by pn.length + pm.length

/-- `proximityPositions` (closure in `evaluateQuery`, phrase.go):
record the position `vm` of the downstream phrase whenever
`vn < vm ≤ vn + dlt`. -/
def proximityPositions (pn pm : List Int) (dlt : Int) : List Int :=
  match pn, pm with
  | [], _ => []
  | _, [] => []
  | vn :: qs, vm :: rs =>
    if vn + dlt < vm then proximityPositions qs (vm :: rs) dlt
    else if vn < vm then vm :: proximityPositions qs rs dlt
    else proximityPositions (vn :: qs) rs dlt
termination_by pn.length + pm.length

/-- The merge loop of `extendPositionalIDs` (phrase.go) over uid lists
zipped with their position arrays. -/
def extendCore (proc : List Int → List Int → Int → List Int) (delta : Int) :
    List (Int × List Int) → List (Int × List Int) → List (Int × List Int)
  | [], _ => []
  | _, [] => []
  | (en, pn) :: ns, (em, pm) :: ms =>
    if en < em then extendCore proc delta ns ((em, pm) :: ms)
    else if em < en then extendCore proc delta ((en, pn) :: ns) ms
    else
      let adj := proc pn pm delta
      if adj.length > 0 then (en, adj) :: extendCore proc delta ns ms
      else extendCore proc delta ns ms
termination_by a b => a.length + b.length

/-- `extendPositionalIDs` (phrase.go): a nil or empty first pair returns
the second unchanged, and vice versa; otherwise the parallel uid and
position arrays are merged pairwise. -/
def extendPositionalIDs (N : GoSlice) (np : GoOfst) (M : GoSlice)
    (mp : GoOfst) (delta : Int)
    (proc : List Int → List Int → Int → List Int) : GoSlice × GoOfst :=
  if lenLt1 N ∨ np = none ∨ np = some [] then (M, mp)
  else if lenLt1 M ∨ mp = none ∨ mp = some [] then (N, np)
  else
    match N, np, M, mp with
    | some nl, some npl, some ml, some mpl =>
      let res := extendCore proc delta (nl.zip npl) (ml.zip mpl)
      (some (res.map Prod.fst), some (res.map Prod.snd))
    | _, _, _, _ => (none, none)

/-- `strings.Fields` for space-separated text: split on runs of
spaces. -/
def fieldsAux : List Char → List Char → List String
  | acc, [] => if acc = [] then [] else [String.mk acc.reverse]
  | acc, c :: cs =>
    if c = ' ' then
      if acc = [] then fieldsAux [] cs
      else String.mk acc.reverse :: fieldsAux [] cs
    else fieldsAux (c :: acc) cs

def sFields (s : String) : List String := fieldsAux [] s.data

/-- `strings.Replace(term, "_", " ", -1)`: the pattern is a single
character, so it is a character map. -/
def underscoreToSpace (s : String) : String :=
  String.mk (s.data.map (fun c => if c = '_' then ' ' else c))

/-- The fetch-scheduling loop of `eval` (phrase.go): a `+`-prefixed term
only advances the phrase distance by its number of plus signs; other
terms are fetched with the current distance attached. -/
def fetchLoop (pstore : String → GoSlice × GoOfst) (dist : Int) :
    List String → List (GoSlice × GoOfst × Int)
  | [] => []
  | w :: ws =>
    let term := underscoreToSpace w
    if term.data.head? = some '+' then
      fetchLoop pstore (dist + term.data.count '+') ws
    else
      ((pstore term).1, (pstore term).2, dist) ::
        fetchLoop pstore (dist + 1) ws

/-- The future-collection loop of `eval`: bail out when any fetched
posting is empty. -/
def collectFetches :
    List (GoSlice × GoOfst × Int) → Option (List (GoSlice × GoOfst × Int))
  | [] => some []
  | f :: fs =>
    if lenLt1 f.1 then none
    else (collectFetches fs).map (f :: ·)

/-- The phrase-extension loop of `eval`: extend the growing phrase by
each subsequent word, bailing out to an empty result when the extension
dies. -/
def extendChain : GoSlice → GoOfst → Int →
    List (GoSlice × GoOfst × Int) → GoSlice × GoOfst × Int
  | data, ofst, dist, [] => (data, ofst, dist)
  | data, ofst, _, f :: fs =>
    let r := extendPositionalIDs data ofst f.1 f.2.1 f.2.2 phrasePositions
    if lenLt1 r.1 then (none, none, 0)
    else extendChain r.1 r.2 (f.2.2 + 1) fs

/-- `eval` (closure in `evaluateQuery`, phrase.go), default-field path:
split the phrase into words; a single bare word with no proximity tests
anywhere in the query uses the document-only postings; otherwise all
words are fetched positionally and folded through
`extendPositionalIDs`/`phrasePositions`. -/
def evalPhrase (pstore : String → GoSlice × GoOfst) (noProx : Bool)
    (str : String) : GoSlice × GoOfst × Int :=
  let words := sFields str
  match words with
  | [] => (none, none, 0)
  | w0 :: rest =>
    if noProx ∧ rest = [] then
      if w0.data.head? = some '+' then (none, none, 0)
      else ((pstore (underscoreToSpace w0)).1, none, 1)
    else
      match collectFetches (fetchLoop pstore 0 (w0 :: rest)) with
      | none => (none, none, 0)
      | some [] => (none, none, 0)
      | some (f :: fs) =>
        if fs = [] then (f.1, f.2.1, f.2.2 + 1)
        else extendChain f.1 f.2.1 (f.2.2 + 1) fs

/-- The token cursor of `evaluateQuery`: the remaining clauses and the
previously returned token. -/
structure PState where
  clauses : List String
  prevTkn : String
deriving DecidableEq, Repr

/-- `nextToken` (closure in `evaluateQuery`, phrase.go), with the two
missing-operator fatals modelled as errors. -/
def nextToken (st : PState) : Except String (String × PState) :=
  match st.clauses with
  | [] => Except.ok ("", st)
  | tkn :: rest =>
    if tkn = "(" ∧ st.prevTkn ≠ "" ∧ st.prevTkn ≠ "&" ∧
        st.prevTkn ≠ "|" ∧ st.prevTkn ≠ "!" then
      Except.error "tokens should be separated by AND, OR, or NOT"
    else if st.prevTkn = ")" ∧ tkn ≠ "" ∧ tkn ≠ "&" ∧ tkn ≠ "|" ∧
        tkn ≠ "!" ∧ tkn ≠ ")" then
      Except.error "tokens should be separated by AND, OR, or NOT"
    else Except.ok (tkn, ⟨rest, tkn⟩)

mutual

/-- `fact` (phrase.go): parenthesized sub-expression or phrase
evaluation.  The fuel argument bounds the recursion depth; every
recursive call decreases it, and the caller supplies more fuel than a
finite token list can consume, so the fuel error is unreachable. -/
def fact (pstore : String → GoSlice × GoOfst) (noProx : Bool) :
    Nat → PState → Except String (GoSlice × GoOfst × Int × String × PState)
  | 0, _ => Except.error "fuel exhausted"
  | n + 1, st => do
    let (tkn, st) ← nextToken st
    if tkn = "(" then do
      let (data, tkn2, st) ← exprQ pstore noProx n st
      if tkn2 = ")" then do
        let (tkn3, st) ← nextToken st
        pure (data, none, 0, tkn3, st)
      else Except.error "expected right parenthesis"
    else if tkn = ")" then Except.error "unexpected right parenthesis"
    else if tkn = "&" ∨ tkn = "|" ∨ tkn = "!" then
      Except.error "unexpected operator in expression"
    else if tkn = "" then Except.error "unexpected end of expression"
    else do
      let r := evalPhrase pstore noProx tkn
      let (tkn2, st) ← nextToken st
      pure (r.1, r.2.1, r.2.2, tkn2, st)

/-- `prox` (phrase.go): a chain of phrases separated by runs of tildes;
an empty phrase result aborts with an empty data and an empty token. -/
def prox (pstore : String → GoSlice × GoOfst) (noProx : Bool) :
    Nat → PState → Except String (GoSlice × String × PState)
  | 0, _ => Except.error "fuel exhausted"
  | n + 1, st => do
    let (data, ofst, delta, tkn, st) ← fact pstore noProx n st
    if lenLt1 data then pure (none, "", st)
    else proxLoop pstore noProx n data ofst delta tkn st

/-- The tilde loop of `prox`. -/
def proxLoop (pstore : String → GoSlice × GoOfst) (noProx : Bool) :
    Nat → GoSlice → GoOfst → Int → String → PState →
      Except String (GoSlice × String × PState)
  | 0, _, _, _, _, _ => Except.error "fuel exhausted"
  | n + 1, data, ofst, delta, tkn, st =>
    if tkn.data.head? = some '~' then do
      let dist : Int := tkn.data.count '~'
      let (next, noff, ndlt, tkn2, st) ← fact pstore noProx n st
      if lenLt1 next then pure (none, "", st)
      else
        let r := extendPositionalIDs data ofst next noff (delta + dist)
          proximityPositions
        if lenLt1 r.1 then pure (none, "", st)
        else proxLoop pstore noProx n r.1 r.2 ndlt tkn2 st
    else pure (data, tkn, st)

/-- `excl` (phrase.go): left-associative `!` over `prox`. -/
def excl (pstore : String → GoSlice × GoOfst) (noProx : Bool) :
    Nat → PState → Except String (GoSlice × String × PState)
  | 0, _ => Except.error "fuel exhausted"
  | n + 1, st => do
    let (data, tkn, st) ← prox pstore noProx n st
    exclLoop pstore noProx n data tkn st

/-- The `!` loop of `excl`. -/
def exclLoop (pstore : String → GoSlice × GoOfst) (noProx : Bool) :
    Nat → GoSlice → String → PState →
      Except String (GoSlice × String × PState)
  | 0, _, _, _ => Except.error "fuel exhausted"
  | n + 1, data, tkn, st =>
    if tkn = "!" then do
      let (next, tkn2, st) ← prox pstore noProx n st
      exclLoop pstore noProx n (excludeIDs data next) tkn2 st
    else pure (data, tkn, st)

/-- `term` (phrase.go): left-associative `&` over `excl`. -/
def termQ (pstore : String → GoSlice × GoOfst) (noProx : Bool) :
    Nat → PState → Except String (GoSlice × String × PState)
  | 0, _ => Except.error "fuel exhausted"
  | n + 1, st => do
    let (data, tkn, st) ← excl pstore noProx n st
    termLoop pstore noProx n data tkn st

/-- The `&` loop of `term`. -/
def termLoop (pstore : String → GoSlice × GoOfst) (noProx : Bool) :
    Nat → GoSlice → String → PState →
      Except String (GoSlice × String × PState)
  | 0, _, _, _ => Except.error "fuel exhausted"
  | n + 1, data, tkn, st =>
    if tkn = "&" then do
      let (next, tkn2, st) ← excl pstore noProx n st
      termLoop pstore noProx n (intersectIDs data next) tkn2 st
    else pure (data, tkn, st)

/-- `expr` (phrase.go): left-associative `|` over `term`. -/
def exprQ (pstore : String → GoSlice × GoOfst) (noProx : Bool) :
    Nat → PState → Except String (GoSlice × String × PState)
  | 0, _ => Except.error "fuel exhausted"
  | n + 1, st => do
    let (data, tkn, st) ← termQ pstore noProx n st
    exprLoop pstore noProx n data tkn st

/-- The `|` loop of `expr`. -/
def exprLoop (pstore : String → GoSlice × GoOfst) (noProx : Bool) :
    Nat → GoSlice → String → PState →
      Except String (GoSlice × String × PState)
  | 0, _, _, _ => Except.error "fuel exhausted"
  | n + 1, data, tkn, st =>
    if tkn = "|" then do
      let (next, tkn2, st) ← termQ pstore noProx n st
      exprLoop pstore noProx n (combineIDs data next) tkn2 st
    else pure (data, tkn, st)

end

/-- `evaluateQuery` (phrase.go): run the recursive-descent parser over
the clause tokens, reject trailing tokens, and return the sorted uid
list (the Go code prints it and returns a count; the list itself is the
observable result). -/
def evaluateQuery (pstore : String → GoSlice × GoOfst)
    (clauses : List String) : Except String (List Int) :=
  match clauses with
  | [] => Except.ok []
  | c :: _ =>
    if c = "" then Except.ok []
    else
      let noProx := clauses.all (fun t => ¬ t.data.head? = some '~')
      match exprQ pstore noProx (8 * clauses.length + 8) ⟨clauses, ""⟩ with
      | Except.error e => Except.error e
      | Except.ok (result, tkn, _) =>
        if tkn ≠ "" then
          Except.error "unexpected token at end of expression"
        else Except.ok ((result.getD []).insertionSort (· ≤ ·))

/-- A plain query word as produced by the tokenizer for ordinary terms:
non-empty and purely alphanumeric (hence not an operator, not a tilde
run, not `+`-prefixed, and containing no space or underscore). -/
def plainWord (w : String) : Prop :=
  w.data ≠ [] ∧ ∀ c ∈ w.data, c.isAlpha ∨ c.isDigit

instance (w : String) : Decidable (plainWord w) := by
  unfold plainWord
  infer_instance

theorem plainWord_char {w : String} (h : plainWord w) {c : Char}
    (hc : c ∈ w.data) :
    c ≠ ' ' ∧ c ≠ '_' ∧ c ≠ '+' ∧ c ≠ '~' ∧ c ≠ '!' ∧ c ≠ '&' ∧
      c ≠ '|' ∧ c ≠ '(' ∧ c ≠ ')' := by
  have h' := h.2 c hc
  refine ⟨?_, ?_, ?_, ?_, ?_, ?_, ?_, ?_, ?_⟩ <;>
    (rintro rfl; revert h'; decide)

theorem plainWord_ne {w : String} (h : plainWord w) :
    w ≠ "" ∧ w ≠ "(" ∧ w ≠ ")" ∧ w ≠ "&" ∧ w ≠ "|" ∧ w ≠ "!" := by
  obtain ⟨c, cs, hdata⟩ : ∃ c cs, w.data = c :: cs := by
    cases hw : w.data with
    | nil => exact absurd hw h.1
    | cons c cs => exact ⟨c, cs, rfl⟩
  have hc := plainWord_char h (hdata ▸ List.mem_cons_self c cs)
  refine ⟨?_, ?_, ?_, ?_, ?_, ?_⟩ <;>
    (intro he; rw [String.ext_iff, hdata] at he; revert he)
  · simp
  all_goals
    (intro he
     have : c = '(' ∨ c = ')' ∨ c = '&' ∨ c = '|' ∨ c = '!' := by
       simp only [List.cons.injEq] at he
       first
         | exact Or.inl he.1
         | exact Or.inr (Or.inl he.1)
         | exact Or.inr (Or.inr (Or.inl he.1))
         | exact Or.inr (Or.inr (Or.inr (Or.inl he.1)))
         | exact Or.inr (Or.inr (Or.inr (Or.inr he.1)))
     rcases this with rfl | rfl | rfl | rfl | rfl <;>
       simp at hc)

theorem plainWord_head_ne {w : String} (h : plainWord w) :
    w.data.head? ≠ some '~' ∧ w.data.head? ≠ some '+' := by
  cases hw : w.data with
  | nil => simp
  | cons c cs =>
    have hc := plainWord_char h (hw ▸ List.mem_cons_self c cs)
    simp only [List.head?_cons, ne_eq, Option.some.injEq]
    exact ⟨hc.2.2.2.1, hc.2.2.1⟩

theorem map_eq_self_of_fix {α : Type} (f : α → α) :
    ∀ (l : List α), (∀ c ∈ l, f c = c) → l.map f = l
  | [], _ => rfl
  | c :: cs, h => by
    simp only [List.map_cons, List.cons.injEq]
    exact ⟨h c (List.mem_cons_self c cs),
      map_eq_self_of_fix f cs fun x hx => h x (List.mem_cons_of_mem c hx)⟩

theorem underscoreToSpace_plain {w : String} (h : plainWord w) :
    underscoreToSpace w = w := by
  unfold underscoreToSpace
  rw [map_eq_self_of_fix _ _ fun c hc => if_neg (plainWord_char h hc).2.1]

theorem fieldsAux_no_space :
    ∀ (l acc : List Char), (∀ c ∈ l, c ≠ ' ') →
      fieldsAux acc l =
        if acc = [] ∧ l = [] then []
        else [String.mk (acc.reverse ++ l)]
  | [], acc, _ => by
    unfold fieldsAux
    by_cases ha : acc = [] <;>
      simp [ha]
  | c :: cs, acc, h => by
    unfold fieldsAux
    rw [if_neg (h c (List.mem_cons_self c cs))]
    rw [fieldsAux_no_space cs (c :: acc)
      (fun x hx => h x (List.mem_cons_of_mem c hx))]
    simp

theorem fieldsAux_append_no_space :
    ∀ (l acc r : List Char), (∀ c ∈ l, c ≠ ' ') →
      fieldsAux acc (l ++ r) = fieldsAux (l.reverse ++ acc) r
  | [], _, _, _ => rfl
  | c :: cs, acc, r, h => by
    have hstep : fieldsAux acc ((c :: cs) ++ r) =
        fieldsAux (c :: acc) (cs ++ r) := by
      show fieldsAux acc (c :: (cs ++ r)) = _
      rw [fieldsAux]
      rw [if_neg (h c (List.mem_cons_self c cs))]
    rw [hstep, fieldsAux_append_no_space cs (c :: acc) r
      (fun x hx => h x (List.mem_cons_of_mem c hx))]
    simp

theorem sFields_plain {w : String} (h : plainWord w) : sFields w = [w] := by
  unfold sFields
  rw [fieldsAux_no_space _ _ fun c hc => (plainWord_char h hc).1]
  rw [if_neg (by simp [h.1])]
  simp

theorem sFields_two {w1 w2 : String} (h1 : plainWord w1)
    (h2 : plainWord w2) : sFields (w1 ++ " " ++ w2) = [w1, w2] := by
  unfold sFields
  have hd : (w1 ++ " " ++ w2).data = w1.data ++ (' ' :: w2.data) := by
    simp [String.data_append]
  rw [hd,
    fieldsAux_append_no_space _ _ _ fun c hc => (plainWord_char h1 hc).1]
  show fieldsAux (w1.data.reverse ++ []) (' ' :: w2.data) = _
  unfold fieldsAux
  rw [if_pos rfl]
  rw [if_neg (by simp [h1.1])]
  rw [fieldsAux_no_space _ _ fun c hc => (plainWord_char h2 hc).1]
  rw [if_neg (by simp [h2.1])]
  simp

theorem mem_phrasePositions :
    ∀ (pn pm : List Int), pn.Sorted (· < ·) → pm.Sorted (· < ·) →
      ∀ (δ x : Int), x ∈ phrasePositions pn pm δ ↔ x ∈ pn ∧ x + δ ∈ pm := by
  intro pn
  induction pn with
  | nil => intro pm _ _ δ x; cases pm <;> simp [phrasePositions]
  | cons vn qs ihn =>
    intro pm
    induction pm with
    | nil => simp [phrasePositions]
    | cons vm rs ihm =>
      intro ha hb δ x
      rw [List.sorted_cons] at ha hb
      by_cases h1 : vn + δ > vm
      · rw [phrasePositions, if_pos h1,
          ihm (List.sorted_cons.2 ha) hb.2 δ x]
        constructor
        · rintro ⟨hx1, hx2⟩; exact ⟨hx1, List.mem_cons_of_mem _ hx2⟩
        · rintro ⟨hx1, hx2⟩
          refine ⟨hx1, ?_⟩
          rcases List.mem_cons.1 hx2 with he | h
          · exfalso
            have hxn : vn ≤ x := by
              rcases List.mem_cons.1 hx1 with rfl | h'
              · exact le_refl x
              · exact le_of_lt (ha.1 x h')
            omega
          · exact h
      · by_cases h2 : vn + δ < vm
        · rw [phrasePositions, if_neg h1, if_pos h2,
            ihn (vm :: rs) ha.2 (List.sorted_cons.2 hb) δ x]
          constructor
          · rintro ⟨hx1, hx2⟩; exact ⟨List.mem_cons_of_mem _ hx1, hx2⟩
          · rintro ⟨hx1, hx2⟩
            rcases List.mem_cons.1 hx1 with rfl | h
            · exfalso
              have hxm : vm ≤ x + δ := by
                rcases List.mem_cons.1 hx2 with he | h'
                · omega
                · exact le_of_lt (hb.1 _ h')
              omega
            · exact ⟨h, hx2⟩
        · have heq : vn + δ = vm := by omega
          rw [phrasePositions, if_neg h1, if_neg h2]
          rw [List.mem_cons, ihn rs ha.2 hb.2 δ x]
          constructor
          · rintro (rfl | ⟨hx1, hx2⟩)
            · exact ⟨List.mem_cons_self _ _, heq ▸ List.mem_cons_self _ _⟩
            · exact ⟨List.mem_cons_of_mem _ hx1, List.mem_cons_of_mem _ hx2⟩
          · rintro ⟨hx1, hx2⟩
            rcases List.mem_cons.1 hx1 with rfl | h
            · exact Or.inl rfl
            · refine Or.inr ⟨h, ?_⟩
              rcases List.mem_cons.1 hx2 with he | h'
              · exfalso
                have : vn < x := ha.1 x h
                omega
              · exact h'

theorem proximityPositions_ne_nil :
    ∀ (pn pm : List Int), pn.Sorted (· < ·) → pm.Sorted (· < ·) →
      ∀ δ : Int, proximityPositions pn pm δ ≠ [] ↔
        ∃ p ∈ pn, ∃ q ∈ pm, p < q ∧ q ≤ p + δ := by
  intro pn
  induction pn with
  | nil => intro pm _ _ δ; cases pm <;> simp [proximityPositions]
  | cons vn qs ihn =>
    intro pm
    induction pm with
    | nil => simp [proximityPositions]
    | cons vm rs ihm =>
      intro ha hb δ
      rw [List.sorted_cons] at ha hb
      by_cases h1 : vn + δ < vm
      · rw [proximityPositions, if_pos h1,
          ihn (vm :: rs) ha.2 (List.sorted_cons.2 hb) δ]
        constructor
        · rintro ⟨p, hp, q, hq, hpq⟩
          exact ⟨p, List.mem_cons_of_mem _ hp, q, hq, hpq⟩
        · rintro ⟨p, hp, q, hq, hpq⟩
          rcases List.mem_cons.1 hp with rfl | hp'
          · exfalso
            have hqm : vm ≤ q := by
              rcases List.mem_cons.1 hq with rfl | h'
              · exact le_refl q
              · exact le_of_lt (hb.1 q h')
            omega
          · exact ⟨p, hp', q, hq, hpq⟩
      · by_cases h2 : vn < vm
        · rw [proximityPositions, if_neg h1, if_pos h2]
          simp only [ne_eq, List.cons_ne_nil, not_false_eq_true, true_iff]
          exact ⟨vn, List.mem_cons_self _ _, vm, List.mem_cons_self _ _,
            h2, by omega⟩
        · rw [proximityPositions, if_neg h1, if_neg h2,
            ihm (List.sorted_cons.2 ha) hb.2 δ]
          constructor
          · rintro ⟨p, hp, q, hq, hpq⟩
            exact ⟨p, hp, q, List.mem_cons_of_mem _ hq, hpq⟩
          · rintro ⟨p, hp, q, hq, hpq⟩
            refine ⟨p, hp, q, ?_, hpq⟩
            rcases List.mem_cons.1 hq with rfl | hq'
            · exfalso
              have hnp : vn ≤ p := by
                rcases List.mem_cons.1 hp with rfl | h'
                · exact le_refl p
                · exact le_of_lt (ha.1 p h')
              omega
            · exact hq'

theorem mem_extendCore_fst :
    ∀ (A B : List (Int × List Int)),
      A.Pairwise (fun x y => x.1 < y.1) →
      B.Pairwise (fun x y => x.1 < y.1) →
      ∀ (proc : List Int → List Int → Int → List Int) (δ u : Int),
        u ∈ (extendCore proc δ A B).map Prod.fst ↔
          ∃ pa pb, (u, pa) ∈ A ∧ (u, pb) ∈ B ∧ proc pa pb δ ≠ [] := by
  intro A
  induction A with
  | nil => intro B _ _ proc δ u; cases B <;> simp [extendCore]
  | cons na ns ihn =>
    intro B
    induction B with
    | nil => simp [extendCore]
    | cons mb ms ihm =>
      intro ha hb proc δ u
      obtain ⟨en, pn⟩ := na
      obtain ⟨em, pm⟩ := mb
      rw [List.pairwise_cons] at ha hb
      by_cases h1 : en < em
      · rw [extendCore, if_pos h1,
          ihn ((em, pm) :: ms) ha.2 (List.pairwise_cons.2 hb) proc δ u]
        constructor
        · rintro ⟨pa, pb, h3, h4, h5⟩
          exact ⟨pa, pb, List.mem_cons_of_mem _ h3, h4, h5⟩
        · rintro ⟨pa, pb, h3, h4, h5⟩
          rcases List.mem_cons.1 h3 with he | h3'
          · exfalso
            have hu : u = en := congrArg Prod.fst he
            subst hu
            rcases List.mem_cons.1 h4 with he' | h4'
            · exact absurd (congrArg Prod.fst he') (by simp; omega)
            · have := hb.1 _ h4'
              simp at this
              omega
          · exact ⟨pa, pb, h3', h4, h5⟩
      · by_cases h2 : em < en
        · rw [extendCore, if_neg h1, if_pos h2,
            ihm (List.pairwise_cons.2 ha) hb.2 proc δ u]
          constructor
          · rintro ⟨pa, pb, h3, h4, h5⟩
            exact ⟨pa, pb, h3, List.mem_cons_of_mem _ h4, h5⟩
          · rintro ⟨pa, pb, h3, h4, h5⟩
            rcases List.mem_cons.1 h4 with he | h4'
            · exfalso
              have hu : u = em := congrArg Prod.fst he
              subst hu
              rcases List.mem_cons.1 h3 with he' | h3'
              · exact absurd (congrArg Prod.fst he') (by simp; omega)
              · have := ha.1 _ h3'
                simp at this
                omega
            · exact ⟨pa, pb, h3, h4', h5⟩
        · have heq : en = em := by omega
          subst heq
          rw [extendCore, if_neg h1, if_neg h2]
          by_cases h3 : (proc pn pm δ).length > 0
          · rw [if_pos h3, List.map_cons, List.mem_cons,
              ihn ms ha.2 hb.2 proc δ u]
            constructor
            · rintro (rfl | ⟨pa, pb, h4, h5, h6⟩)
              · exact ⟨pn, pm, List.mem_cons_self _ _,
                  List.mem_cons_self _ _,
                  by intro he; rw [he] at h3; simp at h3⟩
              · exact ⟨pa, pb, List.mem_cons_of_mem _ h4,
                  List.mem_cons_of_mem _ h5, h6⟩
            · rintro ⟨pa, pb, h4, h5, h6⟩
              rcases List.mem_cons.1 h4 with he | h4' <;>
                rcases List.mem_cons.1 h5 with he' | h5'
              · exact Or.inl (congrArg Prod.fst he)
              · exfalso
                have hu : u = en := congrArg Prod.fst he
                subst hu
                have := hb.1 _ h5'
                simp at this
              · exfalso
                have hu : u = en := congrArg Prod.fst he'
                subst hu
                have := ha.1 _ h4'
                simp at this
              · exact Or.inr ⟨pa, pb, h4', h5', h6⟩
          · rw [if_neg h3,
              ihn ms ha.2 hb.2 proc δ u]
            have hadj : proc pn pm δ = [] := by
              rcases List.eq_nil_or_concat (proc pn pm δ) with he | ⟨l, a, he⟩
              · exact he
              · exfalso; rw [he] at h3; simp at h3
            constructor
            · rintro ⟨pa, pb, h4, h5, h6⟩
              exact ⟨pa, pb, List.mem_cons_of_mem _ h4,
                List.mem_cons_of_mem _ h5, h6⟩
            · rintro ⟨pa, pb, h4, h5, h6⟩
              rcases List.mem_cons.1 h4 with he | h4' <;>
                rcases List.mem_cons.1 h5 with he' | h5'
              · exfalso
                have hpa : pa = pn := congrArg Prod.snd he
                have hpb : pb = pm := congrArg Prod.snd he'
                rw [hpa, hpb] at h6
                exact h6 hadj
              · exfalso
                have hu : u = en := congrArg Prod.fst he
                subst hu
                have := hb.1 _ h5'
                simp at this
              · exfalso
                have hu : u = en := congrArg Prod.fst he'
                subst hu
                have := ha.1 _ h4'
                simp at this
              · exact ⟨pa, pb, h4', h5', h6⟩

theorem pairwise_fst_zip {d : List Int} {o : List (List Int)}
    (hd : d.Pairwise (· < ·)) :
    (d.zip o).Pairwise (fun x y => x.1 < y.1) := by
  induction d generalizing o with
  | nil => simp
  | cons a d' ih =>
    cases o with
    | nil => simp
    | cons b o' =>
      rw [List.zip_cons_cons, List.pairwise_cons]
      rw [List.pairwise_cons] at hd
      refine ⟨?_, ih hd.2⟩
      rintro ⟨x1, x2⟩ hx
      exact hd.1 x1 (List.of_mem_zip hx).1

theorem lookup_eq_some_iff {A : List (Int × List Int)}
    (hA : A.Pairwise (fun x y => x.1 < y.1)) {u : Int} {pa : List Int} :
    List.lookup u A = some pa ↔ (u, pa) ∈ A := by
  induction A with
  | nil => simp [List.lookup]
  | cons hd tl ih =>
    obtain ⟨k, v⟩ := hd
    rw [List.pairwise_cons] at hA
    by_cases he : u = k
    · subst he
      have hl : List.lookup u ((u, v) :: tl) = some v := by
        simp [List.lookup]
      rw [hl]
      constructor
      · intro h
        injection h with h2
        subst h2
        exact List.mem_cons_self _ _
      · intro h
        rcases List.mem_cons.1 h with he' | hmem
        · have h2 : pa = v := congrArg Prod.snd he'
          rw [h2]
        · exact absurd (hA.1 _ hmem) (by simp)
    · have hb2 : (u == k) = false := by simpa using he
      have hl : List.lookup u ((k, v) :: tl) = List.lookup u tl := by
        simp [List.lookup, hb2]
      rw [hl, ih hA.2]
      simp [List.mem_cons, Prod.mk.injEq, he]

theorem exbind_ok {ε α β : Type} (v : α) (f : α → Except ε β) :
    (Bind.bind (Except.ok v) f : Except ε β) = f v := rfl

theorem exbind_pure {ε α β : Type} (v : α) (f : α → Except ε β) :
    (Bind.bind (pure v : Except ε α) f : Except ε β) = f v := rfl

theorem getD_of_lenLt1 {s : GoSlice} (h : lenLt1 s = true) :
    s.getD [] = [] := by
  cases s with
  | none => rfl
  | some l =>
    cases l with
    | nil => rfl
    | cons a as => simp [lenLt1] at h

theorem nextToken_cons_ok {t p : String} {rest : List String}
    (h1 : t ≠ "(") (h2 : p ≠ ")" ∨ t = "&" ∨ t = "|" ∨ t = "!") :
    nextToken ⟨t :: rest, p⟩ = Except.ok (t, ⟨rest, t⟩) := by
  simp only [nextToken]
  rw [if_neg (fun hc => h1 hc.1), if_neg]
  rintro ⟨hp, _, h3, h4, h5, _⟩
  rcases h2 with h2 | h2 | h2 | h2
  · exact h2 hp
  · exact h3 h2
  · exact h4 h2
  · exact h5 h2

theorem evalPhrase_single_noProx (pstore : String → GoSlice × GoOfst)
    {w : String} (hw : plainWord w) :
    evalPhrase pstore true w = ((pstore w).1, none, 1) := by
  simp only [evalPhrase, sFields_plain hw]
  rw [if_pos (by simp), if_neg (plainWord_head_ne hw).2,
    underscoreToSpace_plain hw]

theorem evalPhrase_single_prox (pstore : String → GoSlice × GoOfst)
    {w : String} (hw : plainWord w)
    (hne : lenLt1 (pstore w).1 = false) :
    evalPhrase pstore false w = ((pstore w).1, (pstore w).2, 1) := by
  simp only [evalPhrase, sFields_plain hw]
  rw [if_neg (by rintro ⟨h, _⟩; exact Bool.false_ne_true h)]
  simp only [fetchLoop, underscoreToSpace_plain hw,
    if_neg (plainWord_head_ne hw).2]
  simp only [collectFetches, hne, if_neg (Bool.false_ne_true), Option.map]
  norm_num

theorem evalPhrase_two (pstore : String → GoSlice × GoOfst)
    {w1 w2 : String} (h1 : plainWord w1) (h2 : plainWord w2) (b : Bool)
    (hx : lenLt1 (pstore w1).1 = false)
    (hy : lenLt1 (pstore w2).1 = false) :
    evalPhrase pstore b (w1 ++ " " ++ w2) =
      (let r := extendPositionalIDs (pstore w1).1 (pstore w1).2
          (pstore w2).1 (pstore w2).2 1 phrasePositions
       if lenLt1 r.1 then (none, none, 0) else (r.1, r.2, 2)) := by
  simp only [evalPhrase, sFields_two h1 h2]
  rw [if_neg (by rintro ⟨_, h⟩; exact List.cons_ne_nil _ _ h)]
  simp only [fetchLoop, underscoreToSpace_plain h1, underscoreToSpace_plain h2,
    if_neg (plainWord_head_ne h1).2, if_neg (plainWord_head_ne h2).2]
  simp only [collectFetches, hx, hy, if_neg (Bool.false_ne_true), Option.map]
  simp only [extendChain]
  norm_num

theorem fact_plain (pstore : String → GoSlice × GoOfst) {w p : String}
    {rest : List String} {tkn2 : String} {st2 : PState}
    (hw : plainWord w) (hp : p ≠ ")")
    (hnt : nextToken ⟨rest, w⟩ = Except.ok (tkn2, st2)) (n : Nat) :
    fact pstore true (n + 1) ⟨w :: rest, p⟩ =
      Except.ok ((pstore w).1, none, 1, tkn2, st2) := by
  have hne := plainWord_ne hw
  simp only [fact]
  rw [nextToken_cons_ok hne.2.1 (Or.inl hp), exbind_ok]
  rw [if_neg hne.2.1, if_neg hne.2.2.1,
    if_neg (show ¬_ by
      rintro (h | h | h)
      exacts [hne.2.2.2.1 h, hne.2.2.2.2.1 h, hne.2.2.2.2.2 h]),
    if_neg hne.1]
  rw [evalPhrase_single_noProx pstore hw, hnt, exbind_ok]
  rfl

theorem fact_plain_prox (pstore : String → GoSlice × GoOfst) {w p : String}
    {rest : List String} {tkn2 : String} {st2 : PState}
    (hw : plainWord w) (hp : p ≠ ")")
    (hne : lenLt1 (pstore w).1 = false)
    (hnt : nextToken ⟨rest, w⟩ = Except.ok (tkn2, st2)) (n : Nat) :
    fact pstore false (n + 1) ⟨w :: rest, p⟩ =
      Except.ok ((pstore w).1, (pstore w).2, 1, tkn2, st2) := by
  have hne' := plainWord_ne hw
  simp only [fact]
  rw [nextToken_cons_ok hne'.2.1 (Or.inl hp), exbind_ok]
  rw [if_neg hne'.2.1, if_neg hne'.2.2.1,
    if_neg (show ¬_ by
      rintro (h | h | h)
      exacts [hne'.2.2.2.1 h, hne'.2.2.2.2.1 h, hne'.2.2.2.2.2 h]),
    if_neg hne'.1]
  rw [evalPhrase_single_prox pstore hw hne, hnt, exbind_ok]
  rfl

theorem prox_plain (pstore : String → GoSlice × GoOfst) {w p : String}
    {rest : List String} {tkn2 : String} {st2 : PState}
    (hw : plainWord w) (hp : p ≠ ")")
    (hnt : nextToken ⟨rest, w⟩ = Except.ok (tkn2, st2))
    (ht1 : ¬ tkn2.data.head? = some '~') (n : Nat) :
    prox pstore true (n + 2) ⟨w :: rest, p⟩ =
      (if lenLt1 (pstore w).1 then Except.ok (none, "", st2)
       else Except.ok ((pstore w).1, tkn2, st2)) := by
  simp only [prox]
  rw [fact_plain pstore hw hp hnt, exbind_ok]
  by_cases hld : lenLt1 (pstore w).1 = true
  · rw [if_pos hld, if_pos hld]
    rfl
  · rw [if_neg hld, if_neg hld]
    simp only [proxLoop]
    rw [if_neg ht1]
    rfl

theorem excl_plain (pstore : String → GoSlice × GoOfst) {w p : String}
    {rest : List String} {tkn2 : String} {st2 : PState}
    (hw : plainWord w) (hp : p ≠ ")")
    (hnt : nextToken ⟨rest, w⟩ = Except.ok (tkn2, st2))
    (ht1 : ¬ tkn2.data.head? = some '~') (ht2 : tkn2 ≠ "!") (n : Nat) :
    excl pstore true (n + 3) ⟨w :: rest, p⟩ =
      (if lenLt1 (pstore w).1 then Except.ok (none, "", st2)
       else Except.ok ((pstore w).1, tkn2, st2)) := by
  simp only [excl]
  rw [prox_plain pstore hw hp hnt ht1]
  by_cases hld : lenLt1 (pstore w).1 = true
  · rw [if_pos hld, exbind_ok]
    simp only [exclLoop]
    rw [if_neg (show ¬("" : String) = "!" by decide)]
    rfl
  · rw [if_neg hld, exbind_ok]
    simp only [exclLoop]
    rw [if_neg ht2]
    rfl

theorem ne_of_head_ne {t s : String} {c : Char}
    (hh : t.data.head? = some c) (hs : ¬ s.data.head? = some c) :
    t ≠ s := fun he => hs (he ▸ hh)

theorem termLoop_succ (pstore : String → GoSlice × GoOfst) (noProx : Bool)
    (n : Nat) (data : GoSlice) (tkn : String) (st : PState) :
    termLoop pstore noProx (n + 1) data tkn st =
      (if tkn = "&" then
        Bind.bind (excl pstore noProx n st)
          (fun r => termLoop pstore noProx n (intersectIDs data r.1)
            r.2.1 r.2.2)
      else pure (data, tkn, st)) := rfl

theorem fact_token (pstore : String → GoSlice × GoOfst) (noProx : Bool)
    {t p : String} {rest : List String} {tkn2 : String} {st2 : PState}
    (h1 : t ≠ "(") (h2 : t ≠ ")") (h3 : t ≠ "&") (h4 : t ≠ "|")
    (h5 : t ≠ "!") (h0 : t ≠ "") (hp : p ≠ ")")
    (hnt : nextToken ⟨rest, t⟩ = Except.ok (tkn2, st2)) (n : Nat) :
    fact pstore noProx (n + 1) ⟨t :: rest, p⟩ =
      Except.ok ((evalPhrase pstore noProx t).1,
        (evalPhrase pstore noProx t).2.1,
        (evalPhrase pstore noProx t).2.2, tkn2, st2) := by
  simp only [fact]
  rw [nextToken_cons_ok h1 (Or.inl hp), exbind_ok]
  rw [if_neg h1, if_neg h2,
    if_neg (show ¬_ by
      rintro (h | h | h)
      exacts [h3 h, h4 h, h5 h]),
    if_neg h0]
  rw [hnt, exbind_ok]
  rfl

theorem prox_token (pstore : String → GoSlice × GoOfst) (noProx : Bool)
    {t p : String} {rest : List String} {tkn2 : String} {st2 : PState}
    (h1 : t ≠ "(") (h2 : t ≠ ")") (h3 : t ≠ "&") (h4 : t ≠ "|")
    (h5 : t ≠ "!") (h0 : t ≠ "") (hp : p ≠ ")")
    (hnt : nextToken ⟨rest, t⟩ = Except.ok (tkn2, st2))
    (ht1 : ¬ tkn2.data.head? = some '~') (n : Nat) :
    prox pstore noProx (n + 2) ⟨t :: rest, p⟩ =
      (if lenLt1 (evalPhrase pstore noProx t).1 then
        Except.ok (none, "", st2)
       else Except.ok ((evalPhrase pstore noProx t).1, tkn2, st2)) := by
  simp only [prox]
  rw [fact_token pstore noProx h1 h2 h3 h4 h5 h0 hp hnt, exbind_ok]
  by_cases hld : lenLt1 (evalPhrase pstore noProx t).1 = true
  · rw [if_pos hld, if_pos hld]
    rfl
  · rw [if_neg hld, if_neg hld]
    simp only [proxLoop]
    rw [if_neg ht1]
    rfl

theorem excl_token (pstore : String → GoSlice × GoOfst) (noProx : Bool)
    {t p : String} {rest : List String} {tkn2 : String} {st2 : PState}
    (h1 : t ≠ "(") (h2 : t ≠ ")") (h3 : t ≠ "&") (h4 : t ≠ "|")
    (h5 : t ≠ "!") (h0 : t ≠ "") (hp : p ≠ ")")
    (hnt : nextToken ⟨rest, t⟩ = Except.ok (tkn2, st2))
    (ht1 : ¬ tkn2.data.head? = some '~') (ht2 : tkn2 ≠ "!") (n : Nat) :
    excl pstore noProx (n + 3) ⟨t :: rest, p⟩ =
      (if lenLt1 (evalPhrase pstore noProx t).1 then
        Except.ok (none, "", st2)
       else Except.ok ((evalPhrase pstore noProx t).1, tkn2, st2)) := by
  simp only [excl]
  rw [prox_token pstore noProx h1 h2 h3 h4 h5 h0 hp hnt ht1]
  by_cases hld : lenLt1 (evalPhrase pstore noProx t).1 = true
  · rw [if_pos hld, exbind_ok]
    simp only [exclLoop]
    rw [if_neg (show ¬("" : String) = "!" by decide)]
    rfl
  · rw [if_neg hld, exbind_ok]
    simp only [exclLoop]
    rw [if_neg ht2]
    rfl

theorem evaluateQuery_single_token (pstore : String → GoSlice × GoOfst)
    {t : String} (h1 : t ≠ "(") (h2 : t ≠ ")") (h3 : t ≠ "&")
    (h4 : t ≠ "|") (h5 : t ≠ "!") (h0 : t ≠ "")
    (h6 : ¬ t.data.head? = some '~') :
    evaluateQuery pstore [t] =
      Except.ok (((evalPhrase pstore true t).1.getD
        []).insertionSort (· ≤ ·)) := by
  simp only [evaluateQuery]
  rw [if_neg h0]
  have hnp : (([t] : List String).all
      fun s => ¬ s.data.head? = some '~') = true := by
    simp [h6]
  rw [hnp]
  have hlen : ((8 : Nat) * [t].length + 8) = 16 := by simp
  rw [hlen]
  rw [show (16 : Nat) = 15 + 1 from rfl]
  simp only [exprQ]
  rw [show (15 : Nat) = 14 + 1 from rfl]
  simp only [termQ]
  rw [show (14 : Nat) = 11 + 3 from rfl,
    excl_token pstore true h1 h2 h3 h4 h5 h0
      (show ("" : String) ≠ ")" by decide)
      (show nextToken ⟨[], t⟩ = Except.ok ("", ⟨[], t⟩) from rfl)
      (by simp) (by decide) 11]
  by_cases hld : lenLt1 (evalPhrase pstore true t).1 = true
  · rw [if_pos hld, exbind_ok, termLoop_succ,
      if_neg (show ¬("" : String) = "&" by decide), exbind_pure]
    simp only [exprLoop]
    rw [if_neg (show ¬("" : String) = "|" by decide)]
    rw [getD_of_lenLt1 hld]
    rfl
  · rw [if_neg hld, exbind_ok, termLoop_succ,
      if_neg (show ¬("" : String) = "&" by decide), exbind_pure]
    simp only [exprLoop]
    rw [if_neg (show ¬("" : String) = "|" by decide)]
    rfl

/-- The clause tokens appended after the first conjunct of an `&`-chain:
`& w1 & w2 ...`. -/
def tailTokens : List String → List String
  | [] => []
  | w :: ws => "&" :: w :: tailTokens ws

/-- Reference semantics of an `&`-chain (the amended claim C1):
conjuncts are intersected left to right; the first conjunct with no
postings stops evaluation, returning the accumulator built so far — so
an unknown first conjunct yields the empty result, while an unknown
later conjunct leaves the accumulated intersection unchanged and the
remaining conjuncts are discarded. -/
def chainGo (pstore : String → GoSlice × GoOfst) :
    GoSlice → List String → GoSlice
  | acc, [] => acc
  | acc, w :: ws =>
    if lenLt1 (pstore w).1 then acc
    else chainGo pstore (intersectIDs acc (pstore w).1) ws

theorem intersectIDs_none_right (acc : GoSlice) :
    intersectIDs acc none = acc := by
  cases acc <;> rfl

theorem termLoop_chain (pstore : String → GoSlice × GoOfst) :
    ∀ (ws : List String) (w : String) (acc : GoSlice) (fuel : Nat),
      plainWord w → (∀ x ∈ ws, plainWord x) → 6 * ws.length + 6 ≤ fuel →
      ∃ st', termLoop pstore true fuel acc "&" ⟨w :: tailTokens ws, "&"⟩ =
        Except.ok (chainGo pstore acc (w :: ws), "", st') := by
  intro ws
  induction ws with
  | nil =>
    intro w acc fuel hw _ hf
    obtain ⟨n, rfl⟩ : ∃ n, fuel = n + 1 := ⟨fuel - 1, by omega⟩
    refine ⟨⟨[], w⟩, ?_⟩
    rw [termLoop_succ, if_pos rfl]
    obtain ⟨m, hm⟩ : ∃ m, n = m + 3 := ⟨n - 3, by omega⟩
    rw [hm,
      excl_plain pstore hw (show ("&" : String) ≠ ")" by decide)
        (show nextToken ⟨tailTokens [], w⟩ = Except.ok ("", ⟨[], w⟩)
          from rfl)
        (by simp) (by decide) m]
    by_cases hld : lenLt1 (pstore w).1 = true
    · rw [if_pos hld, exbind_ok, intersectIDs_none_right, termLoop_succ,
        if_neg (show ¬("" : String) = "&" by decide)]
      simp only [chainGo]
      rw [if_pos hld]
      rfl
    · rw [if_neg hld, exbind_ok, termLoop_succ,
        if_neg (show ¬("" : String) = "&" by decide)]
      simp only [chainGo]
      rw [if_neg hld]
      rfl
  | cons u us ih =>
    intro w acc fuel hw hws hf
    obtain ⟨n, rfl⟩ : ∃ n, fuel = n + 1 := ⟨fuel - 1, by omega⟩
    rw [termLoop_succ, if_pos rfl]
    obtain ⟨m, hm⟩ : ∃ m, n = m + 3 := ⟨n - 3, by simp at hf; omega⟩
    rw [hm,
      excl_plain pstore hw (show ("&" : String) ≠ ")" by decide)
        (show nextToken ⟨tailTokens (u :: us), w⟩ =
            Except.ok ("&", ⟨u :: tailTokens us, "&"⟩) from
          nextToken_cons_ok (show ("&" : String) ≠ "(" by decide)
            (Or.inr (Or.inl rfl)))
        (by decide) (by decide) m]
    by_cases hld : lenLt1 (pstore w).1 = true
    · rw [if_pos hld, exbind_ok, intersectIDs_none_right]
      refine ⟨⟨u :: tailTokens us, "&"⟩, ?_⟩
      rw [termLoop_succ,
        if_neg (show ¬("" : String) = "&" by decide)]
      simp only [chainGo]
      rw [if_pos hld]
      rfl
    · rw [if_neg hld, exbind_ok]
      have hfu : 6 * us.length + 6 ≤ m + 3 := by
        simp at hf
        omega
      obtain ⟨st', hst'⟩ := ih u (intersectIDs acc (pstore w).1) (m + 3)
        (hws u (List.mem_cons_self _ _))
        (fun x hx => hws x (List.mem_cons_of_mem _ hx)) hfu
      refine ⟨st', ?_⟩
      rw [hst']
      simp only [chainGo]
      rw [if_neg hld]

theorem tailTokens_length :
    ∀ ws : List String, (tailTokens ws).length = 2 * ws.length
  | [] => rfl
  | w :: ws => by
    simp only [tailTokens, List.length_cons, tailTokens_length ws]
    omega

theorem mem_tailTokens {t : String} :
    ∀ {ws : List String}, t ∈ tailTokens ws → t = "&" ∨ t ∈ ws := by
  intro ws
  induction ws with
  | nil => simp [tailTokens]
  | cons u us ih =>
    simp only [tailTokens, List.mem_cons]
    rintro (rfl | rfl | h)
    · exact Or.inl rfl
    · exact Or.inr (Or.inl rfl)
    · rcases ih h with h' | h'
      · exact Or.inl h'
      · exact Or.inr (Or.inr h')

theorem noProx_chain {w : String} {ws : List String} (hw : plainWord w)
    (hws : ∀ x ∈ ws, plainWord x) :
    ((w :: tailTokens ws).all
      fun t => ¬ t.data.head? = some '~') = true := by
  rw [List.all_eq_true]
  intro t ht
  simp only [decide_eq_true_eq]
  rcases List.mem_cons.1 ht with rfl | ht'
  · exact (plainWord_head_ne hw).1
  · rcases mem_tailTokens ht' with rfl | h
    · simp
    · exact (plainWord_head_ne (hws t h)).1

theorem evaluateQuery_chain (pstore : String → GoSlice × GoOfst)
    {w : String} {ws : List String}
    (hw : plainWord w) (hws : ∀ x ∈ ws, plainWord x) :
    evaluateQuery pstore (w :: tailTokens ws) =
      Except.ok (((if lenLt1 (pstore w).1 then none
          else chainGo pstore (pstore w).1 ws).getD
        []).insertionSort (· ≤ ·)) := by
  have hne := plainWord_ne hw
  cases ws with
  | nil =>
    have hrun := evaluateQuery_single_token pstore hne.2.1 hne.2.2.1
      hne.2.2.2.1 hne.2.2.2.2.1 hne.2.2.2.2.2 hne.1 (plainWord_head_ne hw).1
    have hcast : evaluateQuery pstore (w :: tailTokens []) =
        evaluateQuery pstore [w] := rfl
    rw [hcast, hrun, evalPhrase_single_noProx pstore hw]
    by_cases hld : lenLt1 (pstore w).1 = true
    · rw [if_pos hld, getD_of_lenLt1 hld]
      rfl
    · rw [if_neg hld]
      rfl
  | cons u us =>
    simp only [evaluateQuery]
    rw [if_neg hne.1]
    rw [noProx_chain hw hws]
    rw [show tailTokens (u :: us) = "&" :: u :: tailTokens us from rfl]
    have hf : 8 * (w :: "&" :: u :: tailTokens us).length + 8 =
        (16 * us.length + 27 + 3) + 1 + 1 := by
      simp only [List.length_cons, tailTokens_length]
      omega
    rw [hf]
    simp only [exprQ]
    simp only [termQ]
    rw [excl_plain pstore hw (show ("" : String) ≠ ")" by decide)
      (nextToken_cons_ok (show ("&" : String) ≠ "(" by decide)
        (Or.inr (Or.inl rfl)))
      (by decide) (by decide) (16 * us.length + 27)]
    by_cases hld : lenLt1 (pstore w).1 = true
    · rw [if_pos hld, exbind_ok, termLoop_succ,
        if_neg (show ¬("" : String) = "&" by decide), exbind_pure]
      simp only [exprLoop]
      rw [if_neg (show ¬("" : String) = "|" by decide), if_pos hld]
      rfl
    · rw [if_neg hld, exbind_ok]
      obtain ⟨st', hst'⟩ := termLoop_chain pstore us u (pstore w).1
        (16 * us.length + 27 + 3)
        (hws u (List.mem_cons_self _ _))
        (fun x hx => hws x (List.mem_cons_of_mem _ hx))
        (by omega)
      rw [hst', exbind_ok]
      simp only [exprLoop]
      rw [if_neg (show ¬("" : String) = "|" by decide), if_neg hld]
      rfl

theorem proxLoop_succ (pstore : String → GoSlice × GoOfst) (noProx : Bool)
    (n : Nat) (data : GoSlice) (ofst : GoOfst) (delta : Int) (tkn : String)
    (st : PState) :
    proxLoop pstore noProx (n + 1) data ofst delta tkn st =
      (if tkn.data.head? = some '~' then
        Bind.bind (fact pstore noProx n st) (fun r =>
          if lenLt1 r.1 then pure (none, "", r.2.2.2.2)
          else
            let q := extendPositionalIDs data ofst r.1 r.2.1
              (delta + (tkn.data.count '~' : Int)) proximityPositions
            if lenLt1 q.1 then pure (none, "", r.2.2.2.2)
            else proxLoop pstore noProx n q.1 q.2 r.2.2.1 r.2.2.2.1
              r.2.2.2.2)
      else pure (data, tkn, st)) := rfl

theorem evaluateQuery_proximity (pstore : String → GoSlice × GoOfst)
    {w1 w2 tk : String} (h1 : plainWord w1) (h2 : plainWord w2)
    (htk : tk.data.head? = some '~')
    (hx : lenLt1 (pstore w1).1 = false)
    (hy : lenLt1 (pstore w2).1 = false) :
    evaluateQuery pstore [w1, tk, w2] =
      Except.ok (((extendPositionalIDs (pstore w1).1 (pstore w1).2
          (pstore w2).1 (pstore w2).2 (1 + (tk.data.count '~' : Int))
          proximityPositions).1.getD []).insertionSort (· ≤ ·)) := by
  have hne1 := plainWord_ne h1
  have hne2 := plainWord_ne h2
  have htkp : tk ≠ "(" := ne_of_head_ne htk (by decide)
  have hnp : (([w1, tk, w2] : List String).all
      fun t => ¬ t.data.head? = some '~') = false := by
    refine List.all_eq_false.mpr ⟨tk, by simp, ?_⟩
    simp [htk]
  simp only [evaluateQuery]
  rw [if_neg hne1.1, hnp]
  have hf : (8 : Nat) * ([w1, tk, w2] : List String).length + 8 =
      ((27 + 3) + 1) + 1 := by simp
  rw [hf]
  simp only [exprQ]
  simp only [termQ]
  simp only [excl]
  simp only [prox]
  rw [fact_token pstore false hne1.2.1 hne1.2.2.1 hne1.2.2.2.1
      hne1.2.2.2.2.1 hne1.2.2.2.2.2 hne1.1
      (show ("" : String) ≠ ")" by decide)
      (nextToken_cons_ok htkp (Or.inl hne1.2.2.1)) 27,
    exbind_ok, evalPhrase_single_prox pstore h1 hx]
  rw [if_neg (by simp [hx])]
  rw [proxLoop_succ, if_pos htk]
  rw [fact_token pstore false hne2.2.1 hne2.2.2.1 hne2.2.2.2.1
      hne2.2.2.2.2.1 hne2.2.2.2.2.2 hne2.1
      (ne_of_head_ne htk (by decide))
      (show nextToken ⟨[], w2⟩ = Except.ok ("", ⟨[], w2⟩) from rfl) 26,
    exbind_ok, evalPhrase_single_prox pstore h2 hy]
  rw [if_neg (by simp [hy])]
  simp only []
  by_cases hlr : lenLt1 (extendPositionalIDs (pstore w1).1 (pstore w1).2
      (pstore w2).1 (pstore w2).2 (1 + (tk.data.count '~' : Int))
      proximityPositions).1 = true
  · rw [if_pos hlr, exbind_pure]
    simp only [exclLoop]
    rw [if_neg (show ¬("" : String) = "!" by decide)]
    rw [exbind_pure, termLoop_succ,
      if_neg (show ¬("" : String) = "&" by decide), exbind_pure]
    simp only [exprLoop]
    rw [if_neg (show ¬("" : String) = "|" by decide)]
    rw [getD_of_lenLt1 hlr]
    rfl
  · rw [if_neg hlr, proxLoop_succ,
      if_neg (show ¬("" : String).data.head? = some '~' by simp)]
    rw [exbind_pure]
    simp only [exclLoop]
    rw [if_neg (show ¬("" : String) = "!" by decide)]
    rw [exbind_pure, termLoop_succ,
      if_neg (show ¬("" : String) = "&" by decide), exbind_pure]
    simp only [exprLoop]
    rw [if_neg (show ¬("" : String) = "|" by decide)]
    rfl

theorem evaluateQuery_phrase (pstore : String → GoSlice × GoOfst)
    {w1 w2 : String} (h1 : plainWord w1) (h2 : plainWord w2)
    (hx : lenLt1 (pstore w1).1 = false)
    (hy : lenLt1 (pstore w2).1 = false) :
    evaluateQuery pstore [w1 ++ " " ++ w2] =
      Except.ok (((extendPositionalIDs (pstore w1).1 (pstore w1).2
          (pstore w2).1 (pstore w2).2 1
          phrasePositions).1.getD []).insertionSort (· ≤ ·)) := by
  obtain ⟨c, cs, hdata⟩ : ∃ c cs, w1.data = c :: cs := by
    cases hd : w1.data with
    | nil => exact absurd hd h1.1
    | cons c cs => exact ⟨c, cs, rfl⟩
  have hsp := plainWord_char h1
    (show c ∈ w1.data from hdata ▸ List.mem_cons_self _ _)
  have hd2 : (w1 ++ " " ++ w2).data = w1.data ++ (' ' :: w2.data) := by
    simp [String.data_append]
  have hh : (w1 ++ " " ++ w2).data.head? = some c := by
    rw [hd2, hdata]
    simp
  rw [evaluateQuery_single_token pstore
    (ne_of_head_ne hh (by
      intro he
      simp at he
      exact hsp.2.2.2.2.2.2.2.1 he.symm))
    (ne_of_head_ne hh (by
      intro he
      simp at he
      exact hsp.2.2.2.2.2.2.2.2 he.symm))
    (ne_of_head_ne hh (by
      intro he
      simp at he
      exact hsp.2.2.2.2.2.1 he.symm))
    (ne_of_head_ne hh (by
      intro he
      simp at he
      exact hsp.2.2.2.2.2.2.1 he.symm))
    (ne_of_head_ne hh (by
      intro he
      simp at he
      exact hsp.2.2.2.2.1 he.symm))
    (ne_of_head_ne hh (by simp))
    (by
      rw [hh]
      intro he
      simp at he
      exact hsp.2.2.2.1 he)]
  rw [evalPhrase_two pstore h1 h2 true hx hy]
  simp only []
  by_cases hlr : lenLt1 (extendPositionalIDs (pstore w1).1 (pstore w1).2
      (pstore w2).1 (pstore w2).2 1 phrasePositions).1 = true
  · rw [if_pos hlr, getD_of_lenLt1 hlr]
    rfl
  · rw [if_neg hlr]

/-- A well-formed positional posting: a non-empty, strictly ascending
uid list with a parallel array of non-empty, strictly ascending
position lists, as the indexer produces. -/
def wfPosting (d : List Int) (o : List (List Int)) : Prop :=
  d ≠ [] ∧ d.length = o.length ∧ d.Pairwise (· < ·) ∧
    ∀ l ∈ o, l ≠ [] ∧ l.Pairwise (· < ·)

instance (d : List Int) (o : List (List Int)) :
    Decidable (wfPosting d o) := by
  unfold wfPosting
  infer_instance

/-- The position list recorded for uid `u` under word `w` in the
store (empty when `u` has no posting for `w`). -/
def positionsOf (pstore : String → GoSlice × GoOfst) (w : String)
    (u : Int) : List Int :=
  (List.lookup u
    (((pstore w).1.getD []).zip ((pstore w).2.getD []))).getD []

theorem extendPositionalIDs_some {d1 d2 : List Int}
    {o1 o2 : List (List Int)}
    (h1 : d1 ≠ []) (h2 : o1 ≠ []) (h3 : d2 ≠ []) (h4 : o2 ≠ [])
    (δ : Int) (proc : List Int → List Int → Int → List Int) :
    extendPositionalIDs (some d1) (some o1) (some d2) (some o2) δ proc =
      (some ((extendCore proc δ (d1.zip o1) (d2.zip o2)).map Prod.fst),
       some ((extendCore proc δ (d1.zip o1) (d2.zip o2)).map
        Prod.snd)) := by
  have hc1 : ¬((lenLt1 (some d1) = true) ∨ (some o1 : GoOfst) = none ∨
      (some o1 : GoOfst) = some []) := by
    simp [lenLt1, Nat.lt_one_iff, List.length_eq_zero, h1, h2]
  have hc2 : ¬((lenLt1 (some d2) = true) ∨ (some o2 : GoOfst) = none ∨
      (some o2 : GoOfst) = some []) := by
    simp [lenLt1, Nat.lt_one_iff, List.length_eq_zero, h3, h4]
  rw [extendPositionalIDs, if_neg hc1, if_neg hc2]

theorem phrase_law {d1 d2 : List Int} {o1 o2 : List (List Int)}
    (hwf1 : wfPosting d1 o1) (hwf2 : wfPosting d2 o2) (u : Int) :
    (u ∈ (extendCore phrasePositions 1 (d1.zip o1) (d2.zip o2)).map
        Prod.fst) ↔
      ∃ p ∈ (List.lookup u (d1.zip o1)).getD [],
        p + 1 ∈ (List.lookup u (d2.zip o2)).getD [] := by
  rw [mem_extendCore_fst _ _ (pairwise_fst_zip hwf1.2.2.1)
    (pairwise_fst_zip hwf2.2.2.1) phrasePositions 1 u]
  constructor
  · rintro ⟨pa, pb, hm1, hm2, hne⟩
    have hl1 := (lookup_eq_some_iff (pairwise_fst_zip hwf1.2.2.1)).2 hm1
    have hl2 := (lookup_eq_some_iff (pairwise_fst_zip hwf2.2.2.1)).2 hm2
    have hpa := hwf1.2.2.2 pa (List.of_mem_zip hm1).2
    have hpb := hwf2.2.2.2 pb (List.of_mem_zip hm2).2
    obtain ⟨x, hx⟩ := List.exists_mem_of_ne_nil _ hne
    rw [mem_phrasePositions pa pb hpa.2 hpb.2 1 x] at hx
    exact ⟨x, by rw [hl1]; exact hx.1, by rw [hl2]; exact hx.2⟩
  · rintro ⟨p, hp, hq⟩
    cases hl1 : List.lookup u (d1.zip o1) with
    | none => rw [hl1] at hp; simp at hp
    | some pa =>
      cases hl2 : List.lookup u (d2.zip o2) with
      | none => rw [hl2] at hq; simp at hq
      | some pb =>
        rw [hl1] at hp
        rw [hl2] at hq
        simp only [Option.getD_some] at hp hq
        have hm1 := (lookup_eq_some_iff
          (pairwise_fst_zip hwf1.2.2.1)).1 hl1
        have hm2 := (lookup_eq_some_iff
          (pairwise_fst_zip hwf2.2.2.1)).1 hl2
        have hpa := hwf1.2.2.2 pa (List.of_mem_zip hm1).2
        have hpb := hwf2.2.2.2 pb (List.of_mem_zip hm2).2
        refine ⟨pa, pb, hm1, hm2, fun hnil => ?_⟩
        have hmem : p ∈ phrasePositions pa pb 1 :=
          (mem_phrasePositions pa pb hpa.2 hpb.2 1 p).2 ⟨hp, hq⟩
        rw [hnil] at hmem
        exact absurd hmem (List.not_mem_nil p)

theorem proximity_law {d1 d2 : List Int} {o1 o2 : List (List Int)}
    (hwf1 : wfPosting d1 o1) (hwf2 : wfPosting d2 o2) (δ u : Int) :
    (u ∈ (extendCore proximityPositions δ (d1.zip o1)
        (d2.zip o2)).map Prod.fst) ↔
      ∃ p ∈ (List.lookup u (d1.zip o1)).getD [],
        ∃ q ∈ (List.lookup u (d2.zip o2)).getD [],
          p < q ∧ q ≤ p + δ := by
  rw [mem_extendCore_fst _ _ (pairwise_fst_zip hwf1.2.2.1)
    (pairwise_fst_zip hwf2.2.2.1) proximityPositions δ u]
  constructor
  · rintro ⟨pa, pb, hm1, hm2, hne⟩
    have hl1 := (lookup_eq_some_iff (pairwise_fst_zip hwf1.2.2.1)).2 hm1
    have hl2 := (lookup_eq_some_iff (pairwise_fst_zip hwf2.2.2.1)).2 hm2
    have hpa := hwf1.2.2.2 pa (List.of_mem_zip hm1).2
    have hpb := hwf2.2.2.2 pb (List.of_mem_zip hm2).2
    rw [proximityPositions_ne_nil pa pb hpa.2 hpb.2 δ] at hne
    obtain ⟨p, hp, q, hq, hpq⟩ := hne
    exact ⟨p, by rw [hl1]; exact hp, q, by rw [hl2]; exact hq, hpq⟩
  · rintro ⟨p, hp, q, hq, hpq⟩
    cases hl1 : List.lookup u (d1.zip o1) with
    | none => rw [hl1] at hp; simp at hp
    | some pa =>
      cases hl2 : List.lookup u (d2.zip o2) with
      | none => rw [hl2] at hq; simp at hq
      | some pb =>
        rw [hl1] at hp
        rw [hl2] at hq
        simp only [Option.getD_some] at hp hq
        have hm1 := (lookup_eq_some_iff
          (pairwise_fst_zip hwf1.2.2.1)).1 hl1
        have hm2 := (lookup_eq_some_iff
          (pairwise_fst_zip hwf2.2.2.1)).1 hl2
        have hpa := hwf1.2.2.2 pa (List.of_mem_zip hm1).2
        have hpb := hwf2.2.2.2 pb (List.of_mem_zip hm2).2
        refine ⟨pa, pb, hm1, hm2, ?_⟩
        rw [proximityPositions_ne_nil pa pb hpa.2 hpb.2 δ]
        exact ⟨p, hp, q, hq, hpq⟩

/-- C4: for a two-word phrase query `"w1 w2"` over well-formed
positional postings, a uid `u` appears in the result iff its position
list for `w1` holds some `p` with `p + 1` in its position list for
`w2`; for a proximity query `w1 ~..~ w2` with `k` tildes, `u` appears
iff there are positions `p` for `w1` and `q` for `w2` with
`p < q ≤ p + 1 + k`. -/
theorem claim_C4 (pstore : String → GoSlice × GoOfst)
    (w1 w2 : String) (k : Nat) (d1 d2 : List Int)
    (o1 o2 : List (List Int))
    (h1 : plainWord w1) (h2 : plainWord w2) (hk : 1 ≤ k)
    (hp1 : pstore w1 = (some d1, some o1)) (hwf1 : wfPosting d1 o1)
    (hp2 : pstore w2 = (some d2, some o2)) (hwf2 : wfPosting d2 o2)
    (u : Int) :
    (∃ ids, evaluateQuery pstore [w1 ++ " " ++ w2] = Except.ok ids ∧
      (u ∈ ids ↔ ∃ p ∈ positionsOf pstore w1 u,
        p + 1 ∈ positionsOf pstore w2 u)) ∧
    (∃ ids, evaluateQuery pstore
        [w1, String.mk (List.replicate k '~'), w2] = Except.ok ids ∧
      (u ∈ ids ↔ ∃ p ∈ positionsOf pstore w1 u,
        ∃ q ∈ positionsOf pstore w2 u,
          p < q ∧ q ≤ p + 1 + (k : Int))) := by
  have ho1 : o1 ≠ [] := by
    intro h
    have hlen := hwf1.2.1
    rw [h, List.length_nil, List.length_eq_zero] at hlen
    exact hwf1.1 hlen
  have ho2 : o2 ≠ [] := by
    intro h
    have hlen := hwf2.2.1
    rw [h, List.length_nil, List.length_eq_zero] at hlen
    exact hwf2.1 hlen
  have hx : lenLt1 (pstore w1).1 = false := by
    rw [hp1]
    simp [lenLt1, Nat.lt_one_iff, List.length_eq_zero, hwf1.1]
  have hy : lenLt1 (pstore w2).1 = false := by
    rw [hp2]
    simp [lenLt1, Nat.lt_one_iff, List.length_eq_zero, hwf2.1]
  have hposEq1 : positionsOf pstore w1 u =
      (List.lookup u (d1.zip o1)).getD [] := by
    simp [positionsOf, hp1]
  have hposEq2 : positionsOf pstore w2 u =
      (List.lookup u (d2.zip o2)).getD [] := by
    simp [positionsOf, hp2]
  constructor
  · refine ⟨_, evaluateQuery_phrase pstore h1 h2 hx hy, ?_⟩
    rw [List.mem_insertionSort, hp1, hp2,
      extendPositionalIDs_some hwf1.1 ho1 hwf2.1 ho2 1 phrasePositions]
    rw [show ((some ((extendCore phrasePositions 1 (d1.zip o1)
        (d2.zip o2)).map Prod.fst),
        some ((extendCore phrasePositions 1 (d1.zip o1)
        (d2.zip o2)).map Prod.snd)) :
        GoSlice × GoOfst).1.getD [] =
        (extendCore phrasePositions 1 (d1.zip o1)
          (d2.zip o2)).map Prod.fst from rfl]
    rw [phrase_law hwf1 hwf2 u, ← hposEq1, ← hposEq2]
  · have htk : (String.mk (List.replicate k '~')).data.head? =
        some '~' := by
      obtain ⟨j, rfl⟩ : ∃ j, k = j + 1 := ⟨k - 1, by omega⟩
      simp [List.replicate_succ]
    have hcnt : (String.mk (List.replicate k '~')).data.count '~' = k := by
      simp [List.count_replicate]
    refine ⟨_, evaluateQuery_proximity pstore h1 h2 htk hx hy, ?_⟩
    rw [List.mem_insertionSort, hp1, hp2,
      extendPositionalIDs_some hwf1.1 ho1 hwf2.1 ho2
        (1 + ((String.mk (List.replicate k '~')).data.count '~' : Int))
        proximityPositions]
    rw [show ((some ((extendCore proximityPositions
        (1 + ((String.mk (List.replicate k '~')).data.count '~' : Int))
        (d1.zip o1) (d2.zip o2)).map Prod.fst),
        some ((extendCore proximityPositions
        (1 + ((String.mk (List.replicate k '~')).data.count '~' : Int))
        (d1.zip o1) (d2.zip o2)).map Prod.snd)) :
        GoSlice × GoOfst).1.getD [] =
        (extendCore proximityPositions
          (1 + ((String.mk (List.replicate k '~')).data.count '~' : Int))
          (d1.zip o1) (d2.zip o2)).map Prod.fst from rfl]
    rw [proximity_law hwf1 hwf2
      (1 + ((String.mk (List.replicate k '~')).data.count '~' : Int)) u,
      ← hposEq1, ← hposEq2, hcnt]
    have harith : ∀ p q : Int, (q ≤ p + (1 + (k : Int))) ↔
        (q ≤ p + 1 + (k : Int)) := fun p q => by omega
    simp only [harith]

/-- A concrete store for the phrase/proximity witness, mirroring the
spec's worked example: `acute` occurs at position 1 in uids 5 and 6,
`myocardial` at position 2 in uid 5. -/
def pstoreC4 : String → GoSlice × GoOfst :=
  fun w =>
    if w = "acute" then (some [5, 6], some [[1], [1]])
    else if w = "myocardial" then (some [5], some [[2]])
    else (none, none)

/-- Witness for C4 at the phrase `"acute myocardial"` and the proximity
query `acute ~ myocardial` over `pstoreC4`, observed at uid 5. -/
theorem claim_C4_witness :
    (∃ ids, evaluateQuery pstoreC4 ["acute" ++ " " ++ "myocardial"] =
        Except.ok ids ∧
      ((5 : Int) ∈ ids ↔ ∃ p ∈ positionsOf pstoreC4 "acute" 5,
        p + 1 ∈ positionsOf pstoreC4 "myocardial" 5)) ∧
    (∃ ids, evaluateQuery pstoreC4
        ["acute", String.mk (List.replicate 1 '~'), "myocardial"] =
        Except.ok ids ∧
      ((5 : Int) ∈ ids ↔ ∃ p ∈ positionsOf pstoreC4 "acute" 5,
        ∃ q ∈ positionsOf pstoreC4 "myocardial" 5,
          p < q ∧ q ≤ p + 1 + ((1 : Nat) : Int))) :=
  claim_C4 pstoreC4 "acute" "myocardial" 1 [5, 6] [5] [[1], [1]] [[2]]
    (by decide) (by decide) (by decide) rfl (by decide) rfl (by decide) 5

/-- A concrete store for the `&`-chain counterexample: `a` has postings
`[10, 20, 30]`, every other term (in particular `b`) is unknown. -/
def pstoreC1 : String → GoSlice × GoOfst :=
  fun w => if w = "a" then (some [10, 20, 30], none) else (none, none)

/-- C1 (corrected): for an `&`-chain of plain single-word conjuncts,
the evaluator intersects conjuncts left to right and the first conjunct
with no postings stops evaluation, returning the accumulator built so
far as a valid (sorted) result — never an error.  Hence an unknown
FIRST conjunct yields the empty uid list, but an unknown LATER conjunct
acts as an identity (its empty posting is discarded by `intersectIDs`)
and the remaining conjuncts are silently dropped, so the chain does NOT
short-circuit to empty as the original claim states. -/
theorem claim_C1 (pstore : String → GoSlice × GoOfst)
    (w : String) (ws : List String)
    (hw : plainWord w) (hws : ∀ x ∈ ws, plainWord x) :
    evaluateQuery pstore (w :: tailTokens ws) =
      Except.ok (((if lenLt1 (pstore w).1 then none
          else chainGo pstore (pstore w).1 ws).getD
        []).insertionSort (· ≤ ·)) ∧
    (lenLt1 (pstore w).1 = true →
      evaluateQuery pstore (w :: tailTokens ws) = Except.ok []) := by
  refine ⟨evaluateQuery_chain pstore hw hws, fun hld => ?_⟩
  rw [evaluateQuery_chain pstore hw hws, if_pos hld]
  rfl

/-- Witness for C1 at the concrete chain `a & b` over `pstoreC1`. -/
theorem claim_C1_witness :
    evaluateQuery pstoreC1 ("a" :: tailTokens ["b"]) =
      Except.ok (((if lenLt1 (pstoreC1 "a").1 then none
          else chainGo pstoreC1 (pstoreC1 "a").1 ["b"]).getD
        []).insertionSort (· ≤ ·)) ∧
    (lenLt1 (pstoreC1 "a").1 = true →
      evaluateQuery pstoreC1 ("a" :: tailTokens ["b"]) = Except.ok []) :=
  claim_C1 pstoreC1 "a" ["b"] (by decide) (by decide)

/-- Counterexample to C1 as stated: in the query `a & b` the conjunct
`b` is an unknown term, yet the evaluator returns the non-empty uid
list `[10, 20, 30]`, not the empty list. -/
theorem claim_C1_counterexample :
    evaluateQuery pstoreC1 ["a", "&", "b"] = Except.ok [10, 20, 30] ∧
    ([10, 20, 30] : List Int) ≠ [] := by
  exact ⟨rfl, by decide⟩

end Eutils

